import Mathlib

/-!
Verification of the core of `wtf.py` (Whitespace Total Fixer).

The program is a line-oriented stream filter.  Each input line (as produced
by Python's binary-mode file iteration, which splits after every `'\n'`
byte) is decomposed by the regex

    (?P<ispace>\s*?)(?P<body>(?:\S.*?)?)(?P<trail>\s*?)(?P<eol>(?:\r\n|\n|\r|))$

with `re.S`, into leading whitespace, body, trailing whitespace and EOL
marker; a sequence of fix/report/ignore policies then rewrites the parts,
blank lines are buffered until it is known whether they sit at EOF, and
per-category seen/fixed counters drive the exit code.

Lines are modelled as `List Char`.  Since binary-mode iteration yields
strings whose only `'\n'` (if any) is the final character, all reasoning
is for such "genuine" lines; on them the lazy/backtracking regex match is
equivalent to: the EOL is the longest suffix among "\r\n", "\n", "\r", "";
if the rest contains a non-whitespace character then `ispace` is its
maximal whitespace prefix, `body` runs from the first to the last
non-whitespace character, and `trail` is the remainder; otherwise
`ispace` and `body` are empty and the whole rest is `trail` (the lazy
`ispace` group prefers emptiness, and the whitespace is consumed by the
later `trail` group).
-/

namespace Wtf

/-- Python's `\s` for byte strings: space, tab, newline, carriage return,
form feed, vertical tab. -/
def isWs (c : Char) : Bool :=
  c = ' ' || c = '\t' || c = '\n' || c = '\r' || c = '\x0b' || c = '\x0c'

/-- The EOL marker the regex group `(?P<eol>(?:\r\n|\n|\r|))$` captures on a
genuine input line: the longest suffix among "\r\n", "\n", "\r", "". -/
def lineEol (s : List Char) : List Char :=
  if ['\r', '\n'].isSuffixOf s then ['\r', '\n']
  else if ['\n'].isSuffixOf s then ['\n']
  else if ['\r'].isSuffixOf s then ['\r']
  else []

/-- The line with its EOL marker removed. -/
def lineCore (s : List Char) : List Char :=
  s.take (s.length - (lineEol s).length)

/-- `FileProcessor.lre.match(line).groups()`: the four-part decomposition
`(ispace, body, trail, eol)` of one input line (src/wtf.py lines 119-123,
151-152). -/
def decompose (s : List Char) : List Char × List Char × List Char × List Char :=
  let eol := lineEol s
  let core := lineCore s
  if core.any (fun c => !(isWs c)) then
    let ispace := core.takeWhile (fun c => isWs c)
    let rest := core.dropWhile (fun c => isWs c)
    let bodyRev := rest.reverse.dropWhile (fun c => isWs c)
    let trailRev := rest.reverse.takeWhile (fun c => isWs c)
    (ispace, bodyRev.reverse, trailRev.reverse, eol)
  else
    ([], [], core, eol)

/-- `' ' * n` -/
def spaces (n : Nat) : List Char := List.replicate n ' '

/-- Fuel-indexed worker for `pyReplace` with a non-empty pattern `p :: ps`:
scan left to right, replacing non-overlapping occurrences.  Each step
consumes at least one character, so fuel `s.length` always suffices; the
fuel only makes the recursion structural. -/
def pyReplaceGoF (p : Char) (ps rep : List Char) : Nat → List Char → List Char
  | _, [] => []
  | 0, c :: cs => c :: cs
  | fuel + 1, c :: cs =>
    if c = p ∧ ps.isPrefixOf cs then
      rep ++ pyReplaceGoF p ps rep fuel (cs.drop ps.length)
    else c :: pyReplaceGoF p ps rep fuel cs

/-- Worker for `pyReplace` with a non-empty pattern `p :: ps`. -/
def pyReplaceGo (p : Char) (ps rep s : List Char) : List Char :=
  pyReplaceGoF p ps rep s.length s

/-- Python's `str.replace(pat, rep)`: replace non-overlapping occurrences of
`pat` left to right; an empty pattern inserts `rep` at every position. -/
def pyReplace (s pat rep : List Char) : List Char :=
  match pat with
  | [] => rep ++ (s.map (fun c => c :: rep)).flatten
  | p :: ps => pyReplaceGo p ps rep s

/-- A policy action: the option values `'fix'`, `'report'`, `None` produced
by `multi_opt` (src/wtf.py lines 21-58). -/
inductive Act
  | fix
  | report
  | ignore
deriving DecidableEq

/-- Python truthiness of an action value (`None` is falsy). -/
def Act.on : Act → Bool
  | .ignore => false
  | _ => true

/-- The issue categories: the keys of the `actions` slurpy
(src/wtf.py line 281). -/
inductive Cat
  | trail_space
  | eof_blanks
  | eof_newl
  | match_eol
  | coerce_eol
  | tab_space_mix
  | change_tabs
  | change_non_leading_tabs
  | change_spaces
deriving DecidableEq

/-- Per-category counters (`self.seen`, `self.fixed`). -/
def Counters : Type := Cat → Nat

/-- All-zero counters (`slurpy((k,0) for k in actions)`). -/
def Counters.zero : Counters := fun _ => 0

/-- Increment one category by 1. -/
def bump (c : Counters) (k : Cat) : Counters :=
  fun j => if j = k then c j + 1 else c j

/-- Increment one category by `n`. -/
def bumpN (c : Counters) (k : Cat) (n : Nat) : Counters :=
  fun j => if j = k then c j + n else c j

/-- The action configuration consumed by `FileProcessor.run`.  The width
parameters are `argparse` integers; they are modelled as `Option Nat`
(negative widths degenerate in Python and are outside the modelled use). -/
structure Actions where
  trail_space : Act
  eof_blanks : Act
  eof_newl : Act
  match_eol : Act
  tab_space_mix : Act
  change_tabs : Option Nat
  change_non_leading_tabs : Option Nat
  change_spaces : Option Nat
deriving DecidableEq

/-- Message kinds of the `(verbosity, line, empty, message)` tuples yielded
by `FileProcessor.run`. -/
inductive Msg
  | debugGroups
  | mixWarn
  | changing
  | guessEol
deriving DecidableEq

/-- One yielded event. -/
structure Ev where
  verbosity : Nat
  lineno : Nat
  isEmpty : Bool
  msg : Msg
deriving DecidableEq

/-- Processor state: reference EOL, counters, the pending blank-line buffer,
the chunks written to the output stream, and the yielded events. -/
structure St where
  first_eol : Option (List Char)
  seen : Counters
  fixed : Counters
  buffer : List (List Char)
  output : List (List Char)
  events : List Ev

/-- Fresh state at the start of one file. -/
def initSt : St :=
  { first_eol := none, seen := Counters.zero, fixed := Counters.zero,
    buffer := [], output := [], events := [] }

/-- The per-line working data threaded through the fix-up stages. -/
structure LineData where
  ispace : List Char
  body : List Char
  trail : List Char
  eol : List Char
  mixed : Option Bool
  seen : Counters
  fixed : Counters
  evs : List Ev

/-- `' \t' in ispace or '\t ' in ispace` (src/wtf.py line 163). -/
def mixedCond (i : List Char) : Bool :=
  decide ([' ', '\t'] <:+: i) || decide (['\t', ' '] <:+: i)

/-- Tab/space-mix detection (src/wtf.py lines 162-170). -/
def stageMix (a : Actions) (ii : Nat) (em : Bool) (d : LineData) : LineData :=
  if a.tab_space_mix.on then
    if mixedCond d.ispace then
      { d with mixed := some true,
               seen := bump d.seen .tab_space_mix,
               evs := d.evs ++
                 (if a.tab_space_mix = .report then [⟨0, ii, em, .mixWarn⟩] else []) }
    else { d with mixed := some false }
  else d

/-- Leading-whitespace width conversion: tabs to spaces, or else spaces to
tabs (src/wtf.py lines 172-197). -/
def stageWidth (a : Actions) (d : LineData) : LineData :=
  match a.change_tabs with
  | some n =>
    if '\t' ∈ d.ispace then
      let d1 := { d with seen := bump d.seen .change_tabs }
      if d1.mixed = some true ∧ a.tab_space_mix = .fix then
        { d1 with fixed := bump (bump d1.fixed .tab_space_mix) .change_tabs,
                  ispace := pyReplace d1.ispace ['\t'] (spaces n) }
      else if d1.mixed ≠ some true then
        { d1 with fixed := bump d1.fixed .change_tabs,
                  ispace := pyReplace d1.ispace ['\t'] (spaces n) }
      else d1
    else d
  | none =>
    match a.change_spaces with
    | some n =>
      if ' ' ∈ d.ispace then
        let d1 := { d with seen := bump d.seen .change_spaces }
        if d1.mixed = some true ∧ a.tab_space_mix = .fix then
          { d1 with fixed := bump (bump d1.fixed .tab_space_mix) .change_spaces,
                    ispace := pyReplace (pyReplace d1.ispace ['\t'] (spaces n))
                                (spaces n) ['\t'] }
        else if d1.mixed ≠ some true then
          { d1 with fixed := bump d1.fixed .change_spaces,
                    ispace := pyReplace d1.ispace (spaces n) ['\t'] }
        else d1
      else d
    | none => d

/-- Non-leading tab conversion inside the body (src/wtf.py lines 199-203). -/
def stageNonLead (a : Actions) (d : LineData) : LineData :=
  match a.change_non_leading_tabs with
  | some n =>
    if d.body ≠ [] ∧ '\t' ∈ d.body then
      { d with body := pyReplace d.body ['\t'] (spaces n),
               seen := bump d.seen .change_non_leading_tabs,
               fixed := bump d.fixed .change_non_leading_tabs }
    else d
  | none => d

/-- Trailing-space handling (src/wtf.py lines 205-211). -/
def stageTrail (a : Actions) (d : LineData) : LineData :=
  if a.trail_space.on then
    if d.trail ≠ [] then
      let d1 := { d with seen := bump d.seen .trail_space }
      if a.trail_space = .fix then
        { d1 with fixed := bump d1.fixed .trail_space, trail := [] }
      else d1
    else d
  else d

/-- Line-ending handling: missing, mismatched and coerced EOLs
(src/wtf.py lines 213-244).  `fe` is `self.first_eol` at this point (always
set by the time this code runs); `coerce` is the module-level `coerce_eol`
and `linesep` is `os.linesep`. -/
def stageEol (a : Actions) (coerce : Option (List Char)) (linesep : List Char)
    (fe : Option (List Char)) (ii : Nat) (em : Bool) (d : LineData) : LineData :=
  if d.eol = [] then
    if a.eof_newl.on then
      let d1 := { d with seen := bump d.seen .eof_newl }
      if a.eof_newl = .fix then
        let d2 := { d1 with fixed := bump d1.fixed .eof_newl }
        match coerce with
        | some ce => { d2 with eol := ce }
        | none =>
          if fe.getD [] ≠ [] then { d2 with eol := fe.getD [] }
          else { d2 with eol := linesep, evs := d2.evs ++ [⟨0, ii, em, .guessEol⟩] }
      else d1
    else d
  else
    let d1 :=
      if some d.eol ≠ fe ∧ a.match_eol.on then
        let d2 := { d with seen := bump d.seen .match_eol }
        if a.match_eol = .fix then
          { d2 with fixed := bump d2.fixed .match_eol, eol := fe.getD [] }
        else d2
      else d
    match coerce with
    | some ce =>
      if d1.eol ≠ ce then
        { d1 with eol := ce, seen := bump d1.seen .coerce_eol,
                  fixed := bump d1.fixed .coerce_eol }
      else d1
    | none => d1

/-- The fix-up stages of one loop iteration in their source order
(src/wtf.py lines 161-244). -/
def pipeline (a : Actions) (coerce : Option (List Char)) (linesep : List Char)
    (fe : Option (List Char)) (ii : Nat) (em : Bool) (d : LineData) : LineData :=
  stageEol a coerce linesep fe ii em
    (stageTrail a (stageNonLead a (stageWidth a (stageMix a ii em d))))

/-- The initial per-line working data for one line of input. -/
def initLD (ii : Nat) (st : St) (line : List Char) : LineData :=
  { ispace := (decompose line).1, body := (decompose line).2.1,
    trail := (decompose line).2.2.1, eol := (decompose line).2.2.2,
    mixed := none, seen := st.seen, fixed := st.fixed,
    evs := [⟨4, ii, (decompose line).2.1.isEmpty, .debugGroups⟩] }

/-- `self.first_eol` after the `if self.first_eol is None` update
(src/wtf.py lines 155-157). -/
def nextFe (st : St) (line : List Char) : Option (List Char) :=
  if st.first_eol = none then some (decompose line).2.2.2 else st.first_eol

/-- The per-line working data after all fix-up stages, for one line `l`
arriving in state `st`. -/
def lineOut (a : Actions) (coerce : Option (List Char)) (linesep : List Char)
    (ii : Nat) (st : St) (l : List Char) : LineData :=
  pipeline a coerce linesep (nextFe st l) ii ((decompose l).2.1.isEmpty)
    (initLD ii st l)

/-- The corrected line written (or buffered) for one input line. -/
def outLine (a : Actions) (coerce : Option (List Char)) (linesep : List Char)
    (ii : Nat) (st : St) (l : List Char) : List Char :=
  (lineOut a coerce linesep ii st l).ispace ++
    (lineOut a coerce linesep ii st l).body ++
    (lineOut a coerce linesep ii st l).trail ++
    (lineOut a coerce linesep ii st l).eol

/-- One iteration of the `for ii,line in enumerate(self.inf)` loop
(src/wtf.py lines 149-258): decompose the line, record the first EOL, run
the fix-up stages, reassemble, and either buffer the line (empty body) or
flush the buffer and write it. -/
def processLine (a : Actions) (coerce : Option (List Char)) (linesep : List Char)
    (ii : Nat) (st : St) (line : List Char) : St :=
  let em := (decompose line).2.1.isEmpty
  let fe := nextFe st line
  let d5 := pipeline a coerce linesep fe ii em (initLD ii st line)
  let outline := d5.ispace ++ d5.body ++ d5.trail ++ d5.eol
  let evs := d5.evs ++ (if outline ≠ line then [⟨3, ii, em, .changing⟩] else [])
  if em then
    { first_eol := fe, seen := d5.seen, fixed := d5.fixed,
      buffer := st.buffer ++ [outline], output := st.output,
      events := st.events ++ evs }
  else
    { first_eol := fe, seen := d5.seen, fixed := d5.fixed,
      buffer := [], output := st.output ++ st.buffer ++ [outline],
      events := st.events ++ evs }

/-- The main loop, with 1-based line numbers. -/
def runGo (a : Actions) (coerce : Option (List Char)) (linesep : List Char) :
    Nat → St → List (List Char) → St
  | _, st, [] => st
  | ii, st, l :: ls =>
      runGo a coerce linesep (ii + 1) (processLine a coerce linesep ii st l) ls

/-- End-of-stream handling of leftover buffered blank lines
(src/wtf.py lines 260-269). -/
def finishEof (a : Actions) (st : St) : St :=
  if st.buffer ≠ [] then
    if a.eof_blanks.on then
      let seen1 := bumpN st.seen .eof_blanks st.buffer.length
      if a.eof_blanks = .fix then
        { st with seen := seen1,
                  fixed := bumpN st.fixed .eof_blanks st.buffer.length,
                  buffer := [] }
      else
        { st with seen := seen1, output := st.output ++ st.buffer, buffer := [] }
    else
      { st with output := st.output ++ st.buffer, buffer := [] }
  else st

/-- `FileProcessor.run` on one file, given as the list of its lines. -/
def run (a : Actions) (coerce : Option (List Char)) (linesep : List Char)
    (lines : List (List Char)) : St :=
  finishEof a (runGo a coerce linesep 1 initSt lines)

/-- The bytes written to the output stream. -/
def runOut (a : Actions) (coerce : Option (List Char)) (linesep : List Char)
    (lines : List (List Char)) : List Char :=
  (run a coerce linesep lines).output.flatten

/-- Split a raw byte stream into lines the way Python binary-mode file
iteration does: after every `'\n'`, keeping the terminator. -/
def splitLines : List Char → List (List Char)
  | [] => []
  | c :: cs =>
    if c = '\n' then ['\n'] :: splitLines cs
    else
      match splitLines cs with
      | [] => [[c]]
      | l :: ls => (c :: l) :: ls

/-- Number of warning events: the yields a `-q`/default caller prints
unconditionally (verbosity 0). -/
def warnCount (st : St) : Nat :=
  (st.events.filter (fun e => e.verbosity = 0)).length

/-- The default actions from `parse_args` (src/wtf.py lines 82-98):
trailing space / EOF blanks / EOF newline / EOL match default to `fix`,
tab/space mix to `report`, width conversions unset. -/
def defaultActions : Actions :=
  { trail_space := .fix, eof_blanks := .fix, eof_newl := .fix,
    match_eol := .fix, tab_space_mix := .report,
    change_tabs := none, change_non_leading_tabs := none,
    change_spaces := none }

/-- The configuration `--fix-tab-space-mix --change-spaces 2` with the
other options at their defaults. -/
def mixFixCfg : Actions :=
  { defaultActions with tab_space_mix := Act.fix, change_spaces := some 2 }

/-- The default fix policies with the tab/space-mix check disabled
(`wtf -m none`): a configuration whose second pass finds nothing. -/
def allFixCfg : Actions :=
  { defaultActions with tab_space_mix := Act.ignore }

/-- The slice of parsed arguments involved in the tab/space-mix
configuration check. -/
structure ArgsCfg where
  tab_space_mix : Act
  change_tabs : Option Nat
  change_spaces : Option Nat
deriving DecidableEq

/-- The configuration fix-up in `parse_args` (src/wtf.py lines 112-114):
`fix` for tab/space mix with neither width parameter is downgraded to
`report`; the returned flag records whether the warning was printed. -/
def validateTabSpaceMix (g : ArgsCfg) : ArgsCfg × Bool :=
  if g.tab_space_mix = .fix ∧ g.change_tabs = none ∧ g.change_spaces = none then
    ({ g with tab_space_mix := .report }, true)
  else (g, false)

/-- The fixed category list (iteration order of the `actions` dict keys,
src/wtf.py line 281). -/
def allCats : List Cat :=
  [.trail_space, .eof_blanks, .eof_newl, .match_eol, .coerce_eol,
   .tab_space_mix, .change_tabs, .change_non_leading_tabs, .change_spaces]

/-- `sum(seen[k] for k in actions)` for one file (src/wtf.py line 316). -/
def totalSeen (st : St) : Nat := (allCats.map st.seen).sum

/-- `sum(fixed[k] for k in actions)` for one file (src/wtf.py line 318). -/
def totalFixed (st : St) : Nat := (allCats.map st.fixed).sum

/-- `all_seen` accumulated over all input files (src/wtf.py lines 283-317). -/
def sumSeen (a : Actions) (coerce : Option (List Char)) (linesep : List Char)
    (files : List (List (List Char))) : Nat :=
  (files.map (fun f => totalSeen (run a coerce linesep f))).sum

/-- `all_fixed` accumulated over all input files. -/
def sumFixed (a : Actions) (coerce : Option (List Char)) (linesep : List Char)
    (files : List (List (List Char))) : Nat :=
  (files.map (fun f => totalFixed (run a coerce linesep f))).sum

/-- The process exit status chosen at src/wtf.py lines 374-378: 20 when
unfixed issues remain, 10 when issues were seen but all fixed, otherwise 0
(falling off the end of the script); `-X` suppresses the nonzero codes. -/
def exitCode (noExitCodes : Bool) (allSeen allFixed : Nat) : Nat :=
  if noExitCodes then 0
  else if allFixed < allSeen then 20
  else if 0 < allSeen then 10
  else 0

/-- A line as binary-mode file iteration can actually produce it: `'\n'`
occurs at most as the final character. -/
def Genuine (l : List Char) : Prop := '\n' ∉ l.dropLast

instance (l : List Char) : Decidable (Genuine l) := by
  unfold Genuine
  infer_instance

/-- The class of configurations for which a second pass over the output is
clean: no `report` action (reported issues are left in place and recur),
no space-to-tab conversion (its output can still contain spaces, and a
mixed line can be a flagged fixed point), `fix` for tab/space mix only
with a tab width available (the program asserts this), a standard coercion
value and native EOL, and trailing whitespace removed whenever EOL markers
can be rewritten (otherwise a trailing "\r" can merge with a rewritten
"\n" into a new "\r\n" marker). -/
structure GoodCfg (a : Actions) (coerce : Option (List Char))
    (linesep : List Char) : Prop where
  ts : a.trail_space ≠ Act.report
  eb : a.eof_blanks ≠ Act.report
  en : a.eof_newl ≠ Act.report
  me : a.match_eol ≠ Act.report
  tsm : a.tab_space_mix ≠ Act.report
  hcs : a.change_spaces = none
  tsmFix : a.tab_space_mix = Act.fix → a.change_tabs ≠ none
  co : coerce = none ∨ coerce = some ['\n'] ∨ coerce = some ['\r', '\n']
  lsep : linesep = ['\n'] ∨ linesep = ['\r', '\n']
  trailRw : a.trail_space = Act.fix ∨ (a.match_eol ≠ Act.fix ∧ coerce = none)

/-- The EOL marker the eol stage produces, as a function of the incoming
marker, for configurations without `report` EOL policies. -/
def expectedEol (a : Actions) (coerce : Option (List Char)) (linesep : List Char)
    (fe : Option (List Char)) (e : List Char) : List Char :=
  if e = [] then
    if a.eof_newl = Act.fix then
      match coerce with
      | some ce => ce
      | none => if fe.getD [] ≠ [] then fe.getD [] else linesep
    else []
  else
    match coerce with
    | some ce => ce
    | none => if a.match_eol = Act.fix ∧ some e ≠ fe then fe.getD [] else e

/-- The policy-independent well-formedness facts about a four-part line
decomposition, exactly the ones that make recombination stable. -/
structure BaseOK (i b t e : List Char) : Prop where
  hiws : ∀ c ∈ i, isWs c = true
  hinl : '\n' ∉ i
  htws : ∀ c ∈ t, isWs c = true
  htnl : '\n' ∉ t
  hbh : ∀ c, b.head? = some c → isWs c = false
  hbl : ∀ c, b.getLast? = some c → isWs c = false
  hbnl : '\n' ∉ b
  hblank : b = [] → i = []
  he : e = [] ∨ e = ['\n'] ∨ e = ['\r'] ∨ e = ['\r', '\n']
  hcompat : (e = [] ∨ e = ['\n']) → t.getLast? ≠ some '\r'

/-- The EOL marker all rewritten lines agree on: the coercion target if one
is configured, else the reference EOL of the stream (or `os.linesep` when
the stream's first line has none). -/
def mainEol (coerce : Option (List Char)) (linesep : List Char)
    (E : List Char) : List Char :=
  match coerce with
  | some ce => ce
  | none => if E = [] then linesep else E

/-- Per-line cleanliness for a second pass over an already-fixed stream:
nothing is left for the configured fix actions to do.  `E` is the EOL the
second pass adopts as its reference. -/
structure CleanLine (a : Actions) (co : Option (List Char)) (E : List Char)
    (c : List Char) : Prop where
  ct : a.change_tabs ≠ none → '\t' ∉ (decompose c).1
  nlt : a.change_non_leading_tabs ≠ none → '\t' ∉ (decompose c).2.1
  tr : a.trail_space = Act.fix → (decompose c).2.2.1 = []
  enl : (decompose c).2.2.2 = [] → a.eof_newl ≠ Act.fix
  coe : ∀ ce, co = some ce → (decompose c).2.2.2 ≠ [] → (decompose c).2.2.2 = ce
  eo : (decompose c).2.2.2 = E ∨ (decompose c).2.2.2 = [] ∨
    ((decompose c).2.2.2 ≠ [] ∧ a.match_eol = Act.ignore ∧ co = none)

/-- Counter evolution with per-category "fixed increment bounded by seen
increment", leaving the tab/space-mix category untouched. -/
def CMono (s f s' f' : Counters) : Prop :=
  (∀ k, s k ≤ s' k ∧ f k ≤ f' k ∧ f' k + s k ≤ f k + s' k) ∧
  s' Cat.tab_space_mix = s Cat.tab_space_mix ∧
  f' Cat.tab_space_mix = f Cat.tab_space_mix

/-- What one pass guarantees about every output chunk, relative to the
reference EOL `E` of that pass. -/
structure ChunkC (a : Actions) (co : Option (List Char)) (E : List Char)
    (c : List Char) : Prop where
  base : BaseOK (decompose c).1 (decompose c).2.1 (decompose c).2.2.1
    (decompose c).2.2.2
  ct : a.change_tabs ≠ none → '\t' ∉ (decompose c).1
  nlt : a.change_non_leading_tabs ≠ none → '\t' ∉ (decompose c).2.1
  tr : a.trail_space = Act.fix → (decompose c).2.2.1 = []
  enl : (decompose c).2.2.2 = [] → a.eof_newl ≠ Act.fix
  coe : ∀ ce, co = some ce → (decompose c).2.2.2 ≠ [] → (decompose c).2.2.2 = ce
  mfx : co = none → a.match_eol = Act.fix → (decompose c).2.2.2 ≠ [] →
    (decompose c).2.2.2 = E

/- ### Lemmas about the line decomposition -/

theorem take_sub_of_append {s t e : List Char} (h : s = t ++ e) :
    s.take (s.length - e.length) = t := by
  subst h
  have h2 : (t ++ e).length - e.length = t.length := by
    simp [List.length_append]
  rw [h2, List.take_left]

theorem lineEol_suffix (s : List Char) : lineEol s <:+ s := by
  unfold lineEol
  split
  next h => exact List.isSuffixOf_iff_suffix.1 h
  next =>
    split
    next h => exact List.isSuffixOf_iff_suffix.1 h
    next =>
      split
      next h => exact List.isSuffixOf_iff_suffix.1 h
      next => exact List.nil_suffix

theorem lineCore_append_lineEol (s : List Char) : lineCore s ++ lineEol s = s := by
  obtain ⟨t, ht⟩ := lineEol_suffix s
  have hc : lineCore s = t := by
    rw [lineCore, take_sub_of_append ht.symm]
  rw [hc, ht]

theorem dropWhile_head_not (p : Char → Bool) :
    ∀ (l : List Char) (c : Char), (l.dropWhile p).head? = some c → p c = false := by
  intro l
  induction l with
  | nil => intro c h; simp [List.dropWhile] at h
  | cons x xs ih =>
    intro c h
    by_cases hx : p x = true
    · rw [List.dropWhile_cons_of_pos hx] at h
      exact ih c h
    · rw [List.dropWhile_cons_of_neg hx] at h
      simp only [List.head?_cons, Option.some_inj] at h
      subst h
      simpa using hx

theorem decompose_parts (s : List Char) :
    decompose s =
      if (lineCore s).any (fun c => !(isWs c)) then
        ((lineCore s).takeWhile (fun c => isWs c),
         (((lineCore s).dropWhile (fun c => isWs c)).reverse.dropWhile
            (fun c => isWs c)).reverse,
         (((lineCore s).dropWhile (fun c => isWs c)).reverse.takeWhile
            (fun c => isWs c)).reverse,
         lineEol s)
      else ([], [], lineCore s, lineEol s) := by
  rfl

theorem decompose_concat (s : List Char) :
    (decompose s).1 ++ (decompose s).2.1 ++ (decompose s).2.2.1 ++
      (decompose s).2.2.2 = s := by
  rw [decompose_parts]
  split
  · set core := lineCore s with hcore
    set rest := core.dropWhile (fun c => isWs c) with hrest
    have hbt : (rest.reverse.dropWhile (fun c => isWs c)).reverse ++
        (rest.reverse.takeWhile (fun c => isWs c)).reverse = rest := by
      rw [← List.reverse_append, List.takeWhile_append_dropWhile,
        List.reverse_reverse]
    have hir : core.takeWhile (fun c => isWs c) ++ rest = core := by
      rw [hrest, List.takeWhile_append_dropWhile]
    calc core.takeWhile (fun c => isWs c) ++
          (rest.reverse.dropWhile (fun c => isWs c)).reverse ++
          (rest.reverse.takeWhile (fun c => isWs c)).reverse ++ lineEol s
        = core.takeWhile (fun c => isWs c) ++
            ((rest.reverse.dropWhile (fun c => isWs c)).reverse ++
             (rest.reverse.takeWhile (fun c => isWs c)).reverse) ++ lineEol s := by
          simp [List.append_assoc]
      _ = core ++ lineEol s := by rw [hbt, hir]
      _ = s := lineCore_append_lineEol s
  · simpa using lineCore_append_lineEol s

theorem decompose_body_nonempty (s : List Char)
    (h : (lineCore s).any (fun c => !(isWs c))) : (decompose s).2.1 ≠ [] := by
  rw [decompose_parts, if_pos h]
  simp only [ne_eq, List.reverse_eq_nil_iff]
  intro hnil
  obtain ⟨c, hc, hcw⟩ := List.any_eq_true.1 h
  have hrest : ∀ x ∈ (lineCore s).dropWhile (fun c => isWs c), isWs x = true := by
    intro x hx
    have hx2 : x ∈ ((lineCore s).dropWhile (fun c => isWs c)).reverse := by
      simpa using hx
    have := List.dropWhile_eq_nil_iff.1 hnil
    exact this x hx2
  have hc2 : c ∈ (lineCore s).takeWhile (fun c => isWs c) ∨
      c ∈ (lineCore s).dropWhile (fun c => isWs c) := by
    rw [← List.mem_append, List.takeWhile_append_dropWhile]
    exact hc
  rcases hc2 with hc2 | hc2
  · have := List.mem_takeWhile_imp hc2
    simp [this] at hcw
  · have := hrest c hc2
    simp [this] at hcw

theorem decompose_body_head (s : List Char) :
    ∀ c, ((decompose s).2.1).head? = some c → isWs c = false := by
  intro c h
  rw [decompose_parts] at h
  by_cases hany : (lineCore s).any (fun c => !(isWs c))
  · rw [if_pos hany] at h
    set rest := (lineCore s).dropWhile (fun c => isWs c) with hrest
    have hb : (rest.reverse.dropWhile (fun c => isWs c)).reverse ++
        (rest.reverse.takeWhile (fun c => isWs c)).reverse = rest := by
      rw [← List.reverse_append, List.takeWhile_append_dropWhile,
        List.reverse_reverse]
    have hbne : (rest.reverse.dropWhile (fun c => isWs c)).reverse ≠ [] := by
      have := decompose_body_nonempty s hany
      rw [decompose_parts, if_pos hany] at this
      exact this
    have hh : rest.head? = some c := by
      rw [← hb, List.head?_append_of_ne_nil _ hbne]
      exact h
    exact dropWhile_head_not _ _ _ hh
  · rw [if_neg hany] at h
    simp at h

theorem decompose_body_last (s : List Char) :
    ∀ c, ((decompose s).2.1).getLast? = some c → isWs c = false := by
  intro c h
  rw [decompose_parts] at h
  by_cases hany : (lineCore s).any (fun c => !(isWs c))
  · rw [if_pos hany] at h
    rw [List.getLast?_reverse] at h
    exact dropWhile_head_not _ _ _ h
  · rw [if_neg hany] at h
    simp at h

theorem decompose_blank_parts (s : List Char) (h : (decompose s).2.1 = []) :
    (decompose s).1 = [] ∧ (decompose s).2.2.1 = lineCore s ∧
      (decompose s).2.2.2 = lineEol s := by
  by_cases hany : (lineCore s).any (fun c => !(isWs c))
  · exact absurd h (decompose_body_nonempty s hany)
  · rw [decompose_parts, if_neg hany]
    exact ⟨rfl, rfl, rfl⟩

theorem takeWhile_append_all {p : Char → Bool} :
    ∀ {i r : List Char}, (∀ c ∈ i, p c = true) →
      (i ++ r).takeWhile p = i ++ r.takeWhile p := by
  intro i
  induction i with
  | nil => intro r _; simp
  | cons x xs ih =>
    intro r h
    have hx : p x = true := h x (by simp)
    simp only [List.cons_append, List.takeWhile_cons, hx, if_true]
    rw [ih fun c hc => h c (by simp [hc])]

theorem dropWhile_append_all {p : Char → Bool} :
    ∀ {i r : List Char}, (∀ c ∈ i, p c = true) →
      (i ++ r).dropWhile p = r.dropWhile p := by
  intro i
  induction i with
  | nil => intro r _; simp
  | cons x xs ih =>
    intro r h
    have hx : p x = true := h x (by simp)
    simp only [List.cons_append, List.dropWhile_cons, hx, if_true]
    exact ih fun c hc => h c (by simp [hc])

theorem suffix_getLast {l s : List Char} (h : l <:+ s) (hne : l ≠ []) :
    s.getLast? = l.getLast? := by
  obtain ⟨u, hu⟩ := h
  rw [← hu, List.getLast?_append_of_ne_nil _ hne]

theorem BaseOK.ibt_getLast {i b t e : List Char} (h : BaseOK i b t e)
    (he : e = [] ∨ e = ['\n']) :
    ∀ c, (i ++ b ++ t).getLast? = some c → c ≠ '\r' ∧ c ≠ '\n' := by
  intro c hc
  by_cases ht : t = []
  · subst ht
    by_cases hb : b = []
    · have hi := h.hblank hb
      subst hb; subst hi
      simp at hc
    · rw [List.append_nil, List.getLast?_append_of_ne_nil _ hb] at hc
      have := h.hbl c hc
      constructor
      · intro hcr; subst hcr; simp [isWs] at this
      · intro hcn; subst hcn; simp [isWs] at this
  · rw [List.getLast?_append_of_ne_nil _ ht] at hc
    constructor
    · intro hcr; subst hcr
      exact h.hcompat he hc
    · intro hcn; subst hcn
      exact h.htnl (List.mem_of_mem_getLast? hc)

theorem lineEol_recombine {i b t e : List Char} (h : BaseOK i b t e) :
    lineEol (i ++ b ++ t ++ e) = e := by
  rcases h.he with he | he | he | he
  · subst he
    have hmain : ∀ c, (i ++ b ++ t).getLast? = some c → c ≠ '\r' ∧ c ≠ '\n' :=
      h.ibt_getLast (Or.inl rfl)
    have hglast : ∀ c, (i ++ b ++ t ++ []).getLast? = some c → c ≠ '\r' ∧ c ≠ '\n' := by
      intro c hc
      exact hmain c (by simpa using hc)
    unfold lineEol
    rw [if_neg, if_neg, if_neg]
    · intro hsuf
      have h2 := List.isSuffixOf_iff_suffix.1 hsuf
      have h3 := suffix_getLast h2 (by simp)
      simp only [List.getLast?_singleton] at h3
      exact (hglast '\r' h3).1 rfl
    · intro hsuf
      have h2 := List.isSuffixOf_iff_suffix.1 hsuf
      have h3 := suffix_getLast h2 (by simp)
      simp only [List.getLast?_singleton] at h3
      exact (hglast '\n' h3).2 rfl
    · intro hsuf
      have h2 := List.isSuffixOf_iff_suffix.1 hsuf
      have h3 := suffix_getLast h2 (by simp)
      have h4 : (['\r', '\n'] : List Char).getLast? = some '\n' := by decide
      rw [h4] at h3
      exact (hglast '\n' h3).2 rfl
  · subst he
    have hmain : ∀ c, (i ++ b ++ t).getLast? = some c → c ≠ '\r' ∧ c ≠ '\n' :=
      h.ibt_getLast (Or.inr rfl)
    unfold lineEol
    rw [if_neg, if_pos]
    · exact List.isSuffixOf_iff_suffix.2 ⟨i ++ b ++ t, by simp⟩
    · intro hsuf
      have h2 := List.isSuffixOf_iff_suffix.1 hsuf
      obtain ⟨u, hu⟩ := h2
      have hu2 : u ++ ['\r'] ++ ['\n'] = (i ++ b ++ t) ++ ['\n'] := by
        simpa using hu
      have hu3 : u ++ ['\r'] = i ++ b ++ t :=
        List.append_cancel_right hu2
      have : (i ++ b ++ t).getLast? = some '\r' := by
        rw [← hu3, List.getLast?_append_of_ne_nil _ (by simp)]
        rfl
      exact (hmain '\r' this).1 rfl
  · subst he
    have hs : (i ++ b ++ t ++ ['\r']).getLast? = some '\r' := by
      rw [List.getLast?_append_of_ne_nil _ (by simp)]
      rfl
    unfold lineEol
    rw [if_neg, if_neg, if_pos]
    · exact List.isSuffixOf_iff_suffix.2 ⟨i ++ b ++ t, by simp⟩
    · intro hsuf
      have h2 := suffix_getLast (List.isSuffixOf_iff_suffix.1 hsuf) (by simp)
      rw [hs] at h2
      simp at h2
    · intro hsuf
      have h2 := suffix_getLast (List.isSuffixOf_iff_suffix.1 hsuf) (by simp)
      rw [hs] at h2
      have h4 : (['\r', '\n'] : List Char).getLast? = some '\n' := by decide
      rw [h4] at h2
      simp at h2
  · subst he
    unfold lineEol
    rw [if_pos]
    exact List.isSuffixOf_iff_suffix.2 ⟨i ++ b ++ t, by simp⟩

theorem decompose_recombine {i b t e : List Char} (h : BaseOK i b t e) :
    decompose (i ++ b ++ t ++ e) = (i, b, t, e) := by
  have heol : lineEol (i ++ b ++ t ++ e) = e := lineEol_recombine h
  have hcore : lineCore (i ++ b ++ t ++ e) = i ++ b ++ t := by
    unfold lineCore
    rw [heol]
    exact take_sub_of_append (by simp)
  rw [decompose_parts, hcore, heol]
  by_cases hb : b = []
  · have hi := h.hblank hb
    subst hb; subst hi
    rw [if_neg]
    · simp
    · simp only [List.nil_append, List.any_eq_true, not_exists]
      intro c hc
      have hw := h.htws c hc.1
      simp [hw] at hc
  · obtain ⟨c0, b', hb0⟩ := List.exists_cons_of_ne_nil hb
    have hc0 : isWs c0 = false := by
      apply h.hbh
      rw [hb0]; rfl
    have hblast : ∀ c, b.getLast? = some c → isWs c = false := h.hbl
    rw [if_pos]
    swap
    · apply List.any_eq_true.2
      refine ⟨c0, ?_, by simp [hc0]⟩
      rw [hb0]; simp
    have htake : (i ++ b ++ t).takeWhile (fun c => isWs c) = i := by
      rw [List.append_assoc, takeWhile_append_all h.hiws, hb0, List.cons_append]
      rw [List.takeWhile_cons_of_neg (by simp [hc0])]
      simp
    have hdrop : (i ++ b ++ t).dropWhile (fun c => isWs c) = b ++ t := by
      rw [List.append_assoc, dropWhile_append_all h.hiws, hb0, List.cons_append]
      rw [List.dropWhile_cons_of_neg (by simp [hc0])]
    have hrev : (b ++ t).reverse = t.reverse ++ b.reverse := by
      simp
    obtain ⟨cl, hcl⟩ : ∃ cl, b.getLast? = some cl := by
      rw [hb0]
      exact ⟨(c0 :: b').getLast (by simp), List.getLast?_eq_getLast _ _⟩
    have hclw : isWs cl = false := hblast cl hcl
    have hbrev : b.reverse.head? = some cl := by
      rw [List.head?_reverse]
      exact hcl
    obtain ⟨br, brs, hbr⟩ := List.exists_cons_of_ne_nil
      (show b.reverse ≠ [] by simp [hb0])
    have hbrhead : br = cl := by
      rw [hbr] at hbrev
      simpa using hbrev
    have htrev : ∀ c ∈ t.reverse, isWs c = true := by
      intro c hc
      exact h.htws c (List.mem_reverse.1 hc)
    have htake2 : (b ++ t).reverse.takeWhile (fun c => isWs c) = t.reverse := by
      rw [hrev, takeWhile_append_all htrev, hbr,
        List.takeWhile_cons_of_neg (by simp [hbrhead, hclw])]
      simp
    have hdrop2 : (b ++ t).reverse.dropWhile (fun c => isWs c) = b.reverse := by
      rw [hrev, dropWhile_append_all htrev, hbr,
        List.dropWhile_cons_of_neg (by simp [hbrhead, hclw])]
    rw [hdrop, htake, htake2, hdrop2]
    simp

theorem decompose_eol (s : List Char) : (decompose s).2.2.2 = lineEol s := by
  rw [decompose_parts]
  split <;> rfl

theorem decompose_core_eq (s : List Char) :
    (decompose s).1 ++ (decompose s).2.1 ++ (decompose s).2.2.1 = lineCore s := by
  have h1 := decompose_concat s
  have h2 := lineCore_append_lineEol s
  rw [decompose_eol] at h1
  have h3 : ((decompose s).1 ++ (decompose s).2.1 ++ (decompose s).2.2.1) ++
      lineEol s = lineCore s ++ lineEol s := by
    rw [h2]
    simpa [List.append_assoc] using h1
  exact List.append_cancel_right h3

theorem lineEol_cases (s : List Char) :
    lineEol s = [] ∨ lineEol s = ['\n'] ∨ lineEol s = ['\r'] ∨
      lineEol s = ['\r', '\n'] := by
  unfold lineEol
  split
  · exact Or.inr (Or.inr (Or.inr rfl))
  · split
    · exact Or.inr (Or.inl rfl)
    · split
      · exact Or.inr (Or.inr (Or.inl rfl))
      · exact Or.inl rfl

theorem mem_split_getLast {s : List Char} {c : Char} (h : c ∈ s) :
    c ∈ s.dropLast ∨ s.getLast? = some c := by
  have hne : s ≠ [] := by rintro rfl; simp at h
  have hsplit : s.dropLast ++ [s.getLast hne] = s := List.dropLast_append_getLast hne
  rw [← hsplit] at h
  rcases List.mem_append.1 h with h2 | h2
  · exact Or.inl h2
  · right
    simp only [List.mem_singleton] at h2
    rw [List.getLast?_eq_getLast _ hne, h2]

theorem lineEol_ne_nil_of_last_nl {s : List Char} (h : s.getLast? = some '\n') :
    lineEol s ≠ [] := by
  have hsuf : ['\n'] <:+ s := by
    have hne : s ≠ [] := by rintro rfl; simp at h
    have hsplit : s.dropLast ++ [s.getLast hne] = s := List.dropLast_append_getLast hne
    have hg : s.getLast hne = '\n' := by
      rw [List.getLast?_eq_getLast _ hne] at h
      simpa using h
    exact ⟨s.dropLast, by conv_rhs => rw [← hsplit, hg]⟩
  unfold lineEol
  split
  · simp
  · rw [if_pos (List.isSuffixOf_iff_suffix.2 hsuf)]
    simp

theorem lineEol_ne_nil_of_last_cr {s : List Char} (h : s.getLast? = some '\r') :
    lineEol s ≠ [] := by
  have hsuf : ['\r'] <:+ s := by
    have hne : s ≠ [] := by rintro rfl; simp at h
    have hsplit : s.dropLast ++ [s.getLast hne] = s := List.dropLast_append_getLast hne
    have hg : s.getLast hne = '\r' := by
      rw [List.getLast?_eq_getLast _ hne] at h
      simpa using h
    exact ⟨s.dropLast, by conv_rhs => rw [← hsplit, hg]⟩
  unfold lineEol
  split
  · simp
  · split
    · simp
    · rw [if_pos (List.isSuffixOf_iff_suffix.2 hsuf)]
      simp

theorem genuine_core_no_nl {s : List Char} (h : Genuine s) :
    '\n' ∉ lineCore s := by
  intro hmem
  by_cases he : lineEol s = []
  · have hcore : lineCore s = s := by
      unfold lineCore
      rw [he]
      simp
    rw [hcore] at hmem
    rcases mem_split_getLast hmem with h2 | h2
    · exact h h2
    · exact absurd he (lineEol_ne_nil_of_last_nl h2)
  · have hs := lineCore_append_lineEol s
    have : '\n' ∈ s.dropLast := by
      rw [← hs, List.dropLast_append_of_ne_nil _ he]
      exact List.mem_append.2 (Or.inl hmem)
    exact h this

theorem genuine_core_last_ne_cr {s : List Char}
    (he : lineEol s = [] ∨ lineEol s = ['\n']) :
    (lineCore s).getLast? ≠ some '\r' := by
  intro hlast
  rcases he with he | he
  · have hcore : lineCore s = s := by
      unfold lineCore
      rw [he]
      simp
    rw [hcore] at hlast
    exact absurd he (lineEol_ne_nil_of_last_cr hlast)
  · have hs := lineCore_append_lineEol s
    rw [he] at hs
    obtain ⟨u, hu⟩ : ∃ u, lineCore s = u ++ ['\r'] := by
      have hne : lineCore s ≠ [] := by rintro hn; rw [hn] at hlast; simp at hlast
      have hsplit : (lineCore s).dropLast ++ [(lineCore s).getLast hne] =
          lineCore s := List.dropLast_append_getLast hne
      have hg : (lineCore s).getLast hne = '\r' := by
        rw [List.getLast?_eq_getLast _ hne] at hlast
        simpa using hlast
      exact ⟨(lineCore s).dropLast, by conv_lhs => rw [← hsplit, hg]⟩
    have hsuf : ['\r', '\n'] <:+ s := by
      refine ⟨u, ?_⟩
      rw [← hs, hu]
      simp
    have : lineEol s = ['\r', '\n'] := by
      unfold lineEol
      rw [if_pos (List.isSuffixOf_iff_suffix.2 hsuf)]
    rw [this] at he
    simp at he

theorem decompose_ispace_ws (s : List Char) :
    ∀ c ∈ (decompose s).1, isWs c = true := by
  rw [decompose_parts]
  split
  · intro c hc
    exact List.mem_takeWhile_imp hc
  · intro c hc
    simp at hc

theorem decompose_trail_ws (s : List Char) :
    ∀ c ∈ (decompose s).2.2.1, isWs c = true := by
  rw [decompose_parts]
  split
  · intro c hc
    have hc2 := List.mem_reverse.1 hc
    exact List.mem_takeWhile_imp hc2
  next hany =>
    intro c hc
    simp only [List.any_eq_true, not_exists] at hany
    by_contra hw
    have hf : isWs c = false := by simpa using hw
    exact hany c ⟨hc, by simp [hf]⟩

theorem decompose_sub_core (s : List Char) :
    (∀ c ∈ (decompose s).1, c ∈ lineCore s) ∧
      (∀ c ∈ (decompose s).2.1, c ∈ lineCore s) ∧
      (∀ c ∈ (decompose s).2.2.1, c ∈ lineCore s) := by
  have h := decompose_core_eq s
  refine ⟨?_, ?_, ?_⟩ <;> intro c hc <;> rw [← h]
  · exact List.mem_append.2 (Or.inl (List.mem_append.2 (Or.inl hc)))
  · exact List.mem_append.2 (Or.inl (List.mem_append.2 (Or.inr hc)))
  · exact List.mem_append.2 (Or.inr hc)

theorem decompose_baseOK (s : List Char) (h : Genuine s) :
    BaseOK (decompose s).1 (decompose s).2.1 (decompose s).2.2.1
      (decompose s).2.2.2 := by
  have hsub := decompose_sub_core s
  have hnl := genuine_core_no_nl h
  refine ⟨decompose_ispace_ws s, ?_, decompose_trail_ws s, ?_,
    decompose_body_head s, decompose_body_last s, ?_,
    fun hb => (decompose_blank_parts s hb).1, ?_, ?_⟩
  · intro hc; exact hnl (hsub.1 _ hc)
  · intro hc; exact hnl (hsub.2.2 _ hc)
  · intro hc; exact hnl (hsub.2.1 _ hc)
  · rw [decompose_eol]; exact lineEol_cases s
  · intro he hlast
    rw [decompose_eol] at he
    have hsufc : (decompose s).2.2.1 <:+ lineCore s :=
      ⟨(decompose s).1 ++ (decompose s).2.1, decompose_core_eq s⟩
    have htne : (decompose s).2.2.1 ≠ [] := by
      rintro hn; rw [hn] at hlast; simp at hlast
    have := suffix_getLast hsufc htne
    rw [hlast] at this
    exact genuine_core_last_ne_cr he this

/- ### Claim C1 -/

/-- C1: for every input line L (any byte sequence terminated by "\r\n",
"\n", "\r" or nothing — that is, with '\n' occurring at most as the final
character, as binary-mode iteration guarantees), the decomposition
`(leading_whitespace, body, trailing_whitespace, eol_marker)` produced by
`FileProcessor.lre` concatenates back to exactly L, and the body is either
empty or both begins and ends with a non-whitespace character. -/
theorem c1_decompose_roundtrip (L : List Char) (_h : Genuine L) :
    (decompose L).1 ++ (decompose L).2.1 ++ (decompose L).2.2.1 ++
        (decompose L).2.2.2 = L ∧
      ((decompose L).2.1 = [] ∨
        ((∀ c, ((decompose L).2.1).head? = some c → isWs c = false) ∧
         (∀ c, ((decompose L).2.1).getLast? = some c → isWs c = false))) :=
  ⟨decompose_concat L,
   Or.inr ⟨decompose_body_head L, decompose_body_last L⟩⟩

/-- Witness for C1 at the concrete line "  hello  \r\n". -/
theorem c1_decompose_roundtrip_witness :
    Genuine ("  hello  \r\n".toList) ∧
      ((decompose ("  hello  \r\n".toList)).1 ++
          (decompose ("  hello  \r\n".toList)).2.1 ++
          (decompose ("  hello  \r\n".toList)).2.2.1 ++
          (decompose ("  hello  \r\n".toList)).2.2.2 = "  hello  \r\n".toList ∧
        ((decompose ("  hello  \r\n".toList)).2.1 = [] ∨
          ((∀ c, ((decompose ("  hello  \r\n".toList)).2.1).head? = some c →
              isWs c = false) ∧
           (∀ c, ((decompose ("  hello  \r\n".toList)).2.1).getLast? = some c →
              isWs c = false)))) :=
  ⟨by decide, c1_decompose_roundtrip _ (by decide)⟩

/- ### Claim C9 -/

/-- C9 counterexample: for the whitespace-only line " \n" the decomposition
does NOT put the whitespace run into the leading slot with an empty
trailing slot; the regex's lazy `ispace` group stays empty and `trail`
takes the whole run. -/
theorem c9_counterexample :
    ¬ ((decompose [' ', '\n']).1 = [' '] ∧ (decompose [' ', '\n']).2.2.1 = []) := by
  decide

/-- C9 amended: for every genuine line with empty body, the decomposition
assigns the whole whitespace run to the TRAILING slot and leaves the
leading slot empty, and this split is the same for every such line. -/
theorem c9_blank_split (L : List Char) (_hg : Genuine L)
    (hb : (decompose L).2.1 = []) :
    (decompose L).1 = [] ∧ (decompose L).2.2.1 = lineCore L ∧
      (decompose L).2.2.2 = lineEol L :=
  decompose_blank_parts L hb

/- ### Counter monotonicity: fixed never exceeds seen -/

theorem bump_le (c : Counters) (k j : Cat) : c j ≤ bump c k j := by
  unfold bump
  split <;> omega

theorem bump_other {c : Counters} {k j : Cat} (h : j ≠ k) : bump c k j = c j := by
  unfold bump
  rw [if_neg h]

theorem bump_self (c : Counters) (k : Cat) : bump c k k = c k + 1 := by
  unfold bump
  rw [if_pos rfl]

theorem bump_cases (c : Counters) (k j : Cat) :
    (j = k ∧ bump c k j = c j + 1) ∨ (j ≠ k ∧ bump c k j = c j) := by
  by_cases h : j = k
  · subst h
    exact Or.inl ⟨rfl, bump_self c j⟩
  · exact Or.inr ⟨h, bump_other h⟩

theorem CMono.rfl {s f : Counters} : CMono s f s f :=
  ⟨fun _ => ⟨le_refl _, le_refl _, le_refl _⟩, Eq.refl _, Eq.refl _⟩

theorem CMono.comp {s f s' f' s'' f'' : Counters}
    (h1 : CMono s f s' f') (h2 : CMono s' f' s'' f'') : CMono s f s'' f'' := by
  refine ⟨fun k => ?_, ?_, ?_⟩
  · obtain ⟨a1, a2, a3⟩ := h1.1 k
    obtain ⟨b1, b2, b3⟩ := h2.1 k
    exact ⟨le_trans a1 b1, le_trans a2 b2, by omega⟩
  · rw [h2.2.1, h1.2.1]
  · rw [h2.2.2, h1.2.2]

theorem CMono.bumpSeen (k : Cat) {s f : Counters} (h : k ≠ Cat.tab_space_mix) :
    CMono s f (bump s k) f := by
  refine ⟨fun j => ?_, bump_other (Ne.symm h), Eq.refl _⟩
  by_cases hj : j = k
  · subst hj
    rw [bump_self]
    omega
  · rw [bump_other hj]
    omega

theorem CMono.bumpBoth (k : Cat) {s f : Counters} (h : k ≠ Cat.tab_space_mix) :
    CMono s f (bump s k) (bump f k) := by
  refine ⟨fun j => ?_, bump_other (Ne.symm h), bump_other (Ne.symm h)⟩
  by_cases hj : j = k
  · subst hj
    rw [bump_self, bump_self]
    omega
  · rw [bump_other hj, bump_other hj]
    omega

theorem stageMix_facts (a : Actions) (ii : Nat) (em : Bool) (d : LineData)
    (hd : d.mixed ≠ some true) :
    (stageMix a ii em d).fixed = d.fixed ∧
    (∀ k, k ≠ Cat.tab_space_mix → (stageMix a ii em d).seen k = d.seen k) ∧
    d.seen Cat.tab_space_mix ≤ (stageMix a ii em d).seen Cat.tab_space_mix ∧
    ((stageMix a ii em d).mixed = some true →
      (stageMix a ii em d).seen Cat.tab_space_mix =
        d.seen Cat.tab_space_mix + 1) ∧
    ((stageMix a ii em d).mixed ≠ some true →
      (stageMix a ii em d).seen = d.seen) := by
  unfold stageMix
  split
  · split
    · dsimp only
      exact ⟨rfl, fun k hk => bump_other hk, bump_le _ _ _,
        fun _ => bump_self _ _, fun hm => absurd rfl hm⟩
    · dsimp only
      exact ⟨rfl, fun k _ => rfl, le_refl _, fun hm => by simp at hm,
        fun _ => rfl⟩
  · exact ⟨rfl, fun k _ => rfl, le_refl _, fun hm => absurd hm hd, fun _ => rfl⟩

theorem width_branch_facts (s f : Counters) {s' f' : Counters} (kc : Cat)
    (hkc : kc ≠ Cat.tab_space_mix)
    (hs : s' = bump s kc)
    (hf : f' = f ∨ f' = bump f kc ∨ f' = bump (bump f Cat.tab_space_mix) kc) :
    (∀ k, s k ≤ s' k ∧ f k ≤ f' k ∧
      (k ≠ Cat.tab_space_mix → f' k + s k ≤ f k + s' k)) ∧
    s' Cat.tab_space_mix = s Cat.tab_space_mix ∧
    (f' Cat.tab_space_mix = f Cat.tab_space_mix ∨
      f' Cat.tab_space_mix = f Cat.tab_space_mix + 1) := by
  subst hs
  refine ⟨fun k => ?_, bump_other (Ne.symm hkc), ?_⟩
  · rcases hf with hf | hf | hf <;> subst hf
    · by_cases hk : k = kc
      · subst hk
        rw [bump_self]
        exact ⟨Nat.le_succ _, le_refl _, fun _ => by omega⟩
      · rw [bump_other hk]
        exact ⟨le_refl _, le_refl _, fun _ => le_refl _⟩
    · by_cases hk : k = kc
      · subst hk
        rw [bump_self, bump_self]
        exact ⟨Nat.le_succ _, Nat.le_succ _, fun _ => by omega⟩
      · rw [bump_other hk, bump_other hk]
        exact ⟨le_refl _, le_refl _, fun _ => le_refl _⟩
    · by_cases hk : k = kc
      · subst hk
        rw [bump_self, bump_self, bump_other hkc]
        exact ⟨Nat.le_succ _, Nat.le_succ _, fun _ => by omega⟩
      · rw [bump_other hk, bump_other hk]
        by_cases hk2 : k = Cat.tab_space_mix
        · subst hk2
          rw [bump_self]
          exact ⟨le_refl _, Nat.le_succ _, fun h => absurd rfl h⟩
        · rw [bump_other hk2]
          exact ⟨le_refl _, le_refl _, fun _ => le_refl _⟩
  · rcases hf with hf | hf | hf <;> subst hf
    · exact Or.inl rfl
    · exact Or.inl (bump_other (Ne.symm hkc))
    · right
      rw [bump_other (Ne.symm hkc), bump_self]

theorem stageWidth_facts (a : Actions) (d : LineData) :
    (∀ k, d.seen k ≤ (stageWidth a d).seen k ∧
      d.fixed k ≤ (stageWidth a d).fixed k ∧
      (k ≠ Cat.tab_space_mix →
        (stageWidth a d).fixed k + d.seen k ≤
          d.fixed k + (stageWidth a d).seen k)) ∧
    (stageWidth a d).seen Cat.tab_space_mix = d.seen Cat.tab_space_mix ∧
    ((stageWidth a d).fixed Cat.tab_space_mix = d.fixed Cat.tab_space_mix ∨
      ((stageWidth a d).fixed Cat.tab_space_mix =
          d.fixed Cat.tab_space_mix + 1 ∧ d.mixed = some true)) := by
  have hid : (∀ k, d.seen k ≤ d.seen k ∧ d.fixed k ≤ d.fixed k ∧
      (k ≠ Cat.tab_space_mix → d.fixed k + d.seen k ≤ d.fixed k + d.seen k)) ∧
      d.seen Cat.tab_space_mix = d.seen Cat.tab_space_mix ∧
      (d.fixed Cat.tab_space_mix = d.fixed Cat.tab_space_mix ∨
        (d.fixed Cat.tab_space_mix = d.fixed Cat.tab_space_mix + 1 ∧
          d.mixed = some true)) :=
    ⟨fun k => ⟨le_refl _, le_refl _, fun _ => le_refl _⟩, rfl, Or.inl rfl⟩
  unfold stageWidth
  dsimp only
  split
  · split
    · split
      next hmix =>
        dsimp only
        have h := width_branch_facts d.seen d.fixed
          Cat.change_tabs (by decide) rfl
          (Or.inr (Or.inr rfl))
        rcases h.2.2 with h2 | h2
        · exact ⟨h.1, h.2.1, Or.inl h2⟩
        · exact ⟨h.1, h.2.1, Or.inr ⟨h2, hmix.1⟩⟩
      · split
        · dsimp only
          have h := width_branch_facts d.seen d.fixed
            Cat.change_tabs (by decide) rfl (Or.inr (Or.inl rfl))
          rcases h.2.2 with h2 | h2
          · exact ⟨h.1, h.2.1, Or.inl h2⟩
          · exact ⟨h.1, h.2.1, Or.inl (by rw [bump_other (by decide)])⟩
        · dsimp only
          have h := width_branch_facts d.seen d.fixed
            Cat.change_tabs (by decide) rfl (Or.inl rfl)
          exact ⟨h.1, h.2.1, Or.inl rfl⟩
    · exact hid
  · split
    · split
      · split
        next hmix =>
          dsimp only
          have h := width_branch_facts d.seen d.fixed
            Cat.change_spaces (by decide) rfl
            (Or.inr (Or.inr rfl))
          rcases h.2.2 with h2 | h2
          · exact ⟨h.1, h.2.1, Or.inl h2⟩
          · exact ⟨h.1, h.2.1, Or.inr ⟨h2, hmix.1⟩⟩
        · split
          · dsimp only
            have h := width_branch_facts d.seen d.fixed
              Cat.change_spaces (by decide) rfl (Or.inr (Or.inl rfl))
            exact ⟨h.1, h.2.1, Or.inl (by rw [bump_other (by decide)])⟩
          · dsimp only
            have h := width_branch_facts d.seen d.fixed
              Cat.change_spaces (by decide) rfl (Or.inl rfl)
            exact ⟨h.1, h.2.1, Or.inl rfl⟩
      · exact hid
    · exact hid

theorem stageNonLead_cmono (a : Actions) (d : LineData) :
    CMono d.seen d.fixed (stageNonLead a d).seen (stageNonLead a d).fixed := by
  unfold stageNonLead
  split
  · split
    · dsimp only
      exact CMono.bumpBoth Cat.change_non_leading_tabs (by decide)
    · exact CMono.rfl
  · exact CMono.rfl

theorem stageTrail_cmono (a : Actions) (d : LineData) :
    CMono d.seen d.fixed (stageTrail a d).seen (stageTrail a d).fixed := by
  unfold stageTrail
  dsimp only
  split
  · split
    · split
      · dsimp only
        exact CMono.bumpBoth Cat.trail_space (by decide)
      · dsimp only
        exact CMono.bumpSeen Cat.trail_space (by decide)
    · exact CMono.rfl
  · exact CMono.rfl

theorem stageEol_cmono (a : Actions) (co : Option (List Char))
    (ls : List Char) (fe : Option (List Char)) (ii : Nat) (em : Bool)
    (d : LineData) :
    CMono d.seen d.fixed (stageEol a co ls fe ii em d).seen
      (stageEol a co ls fe ii em d).fixed := by
  unfold stageEol
  dsimp only
  split
  · split
    · split
      · split
        · dsimp only
          exact CMono.bumpBoth Cat.eof_newl (by decide)
        · split
          · dsimp only
            exact CMono.bumpBoth Cat.eof_newl (by decide)
          · dsimp only
            exact CMono.bumpBoth Cat.eof_newl (by decide)
      · dsimp only
        exact CMono.bumpSeen Cat.eof_newl (by decide)
    · exact CMono.rfl
  · rcases co with _ | ce
    · dsimp only
      split
      · split
        · dsimp only
          exact CMono.bumpBoth Cat.match_eol (by decide)
        · dsimp only
          exact CMono.bumpSeen Cat.match_eol (by decide)
      · exact CMono.rfl
    · dsimp only
      split
      · split
        · split
          · dsimp only
            exact CMono.comp (CMono.bumpBoth Cat.match_eol (by decide))
              (CMono.bumpBoth Cat.coerce_eol (by decide))
          · dsimp only
            exact CMono.bumpBoth Cat.match_eol (by decide)
        · split
          · dsimp only
            exact CMono.comp (CMono.bumpSeen Cat.match_eol (by decide))
              (CMono.bumpBoth Cat.coerce_eol (by decide))
          · dsimp only
            exact CMono.bumpSeen Cat.match_eol (by decide)
      · split
        · dsimp only
          exact CMono.bumpBoth Cat.coerce_eol (by decide)
        · exact CMono.rfl

/-- Witness for C9 (amended) at the concrete blank line "  \r\n". -/
theorem c9_blank_split_witness :
    Genuine ("  \r\n".toList) ∧ (decompose ("  \r\n".toList)).2.1 = [] ∧
      ((decompose ("  \r\n".toList)).1 = [] ∧
        (decompose ("  \r\n".toList)).2.2.1 = lineCore ("  \r\n".toList) ∧
        (decompose ("  \r\n".toList)).2.2.2 = lineEol ("  \r\n".toList)) :=
  ⟨by decide, by decide, c9_blank_split _ (by decide) (by decide)⟩

theorem pipeline_mono (a : Actions) (co : Option (List Char)) (ls : List Char)
    (fe : Option (List Char)) (ii : Nat) (em : Bool) (d : LineData)
    (hd : d.mixed ≠ some true) :
    ∀ k, d.seen k ≤ (pipeline a co ls fe ii em d).seen k ∧
      d.fixed k ≤ (pipeline a co ls fe ii em d).fixed k ∧
      (pipeline a co ls fe ii em d).fixed k + d.seen k ≤
        d.fixed k + (pipeline a co ls fe ii em d).seen k := by
  intro k
  obtain ⟨hf1, hs1o, hs1le, hs1t, hs1nt⟩ := stageMix_facts a ii em d hd
  obtain ⟨hw, hws, hwf⟩ := stageWidth_facts a (stageMix a ii em d)
  have h345 := ((stageNonLead_cmono a
      (stageWidth a (stageMix a ii em d))).comp
    (stageTrail_cmono a
      (stageNonLead a (stageWidth a (stageMix a ii em d))))).comp
    (stageEol_cmono a co ls fe ii em
      (stageTrail a (stageNonLead a (stageWidth a (stageMix a ii em d)))))
  obtain ⟨h345p, h345s, h345f⟩ := h345
  unfold pipeline
  have hf1k := congrFun hf1 k
  have hf1m := congrFun hf1 Cat.tab_space_mix
  by_cases hk : k = Cat.tab_space_mix
  · subst hk
    by_cases hm1 : (stageMix a ii em d).mixed = some true
    · have hs1 := hs1t hm1
      rcases hwf with hwf | ⟨hwf, _⟩ <;>
        exact ⟨by omega, by omega, by omega⟩
    · have hs1 := congrFun (hs1nt hm1) Cat.tab_space_mix
      rcases hwf with hwf | ⟨hwf, hmix⟩
      · exact ⟨by omega, by omega, by omega⟩
      · exact absurd hmix hm1
  · have hs1 := hs1o k hk
    obtain ⟨hw1, hw2, hw3⟩ := hw k
    have hw3' := hw3 hk
    obtain ⟨hp1, hp2, hp3⟩ := h345p k
    exact ⟨by omega, by omega, by omega⟩

theorem processLine_mono (a : Actions) (co : Option (List Char))
    (ls : List Char) (ii : Nat) (st : St) (l : List Char) :
    ∀ k, st.seen k ≤ (processLine a co ls ii st l).seen k ∧
      st.fixed k ≤ (processLine a co ls ii st l).fixed k ∧
      (processLine a co ls ii st l).fixed k + st.seen k ≤
        st.fixed k + (processLine a co ls ii st l).seen k := by
  intro k
  have hp := pipeline_mono a co ls (nextFe st l) ii ((decompose l).2.1.isEmpty)
    (initLD ii st l) (by simp [initLD]) k
  unfold processLine
  dsimp only
  split
  · exact hp
  · exact hp

theorem runGo_mono (a : Actions) (co : Option (List Char)) (ls : List Char) :
    ∀ (lines : List (List Char)) (ii : Nat) (st : St) (k : Cat),
      st.seen k ≤ (runGo a co ls ii st lines).seen k ∧
      st.fixed k ≤ (runGo a co ls ii st lines).fixed k ∧
      (runGo a co ls ii st lines).fixed k + st.seen k ≤
        st.fixed k + (runGo a co ls ii st lines).seen k := by
  intro lines
  induction lines with
  | nil => exact fun ii st k => ⟨le_refl _, le_refl _, le_refl _⟩
  | cons l rest ih =>
    intro ii st k
    have h1 := processLine_mono a co ls ii st l k
    have h2 := ih (ii + 1) (processLine a co ls ii st l) k
    have hrw : runGo a co ls ii st (l :: rest) =
        runGo a co ls (ii + 1) (processLine a co ls ii st l) rest := rfl
    rw [hrw]
    exact ⟨le_trans h1.1 h2.1, le_trans h1.2.1 h2.2.1, by omega⟩

theorem bumpN_facts (c : Counters) (k j : Cat) (n : Nat) :
    c j ≤ bumpN c k n j ∧ bumpN c k n j ≤ c j + n ∧ bumpN c k n k = c k + n := by
  refine ⟨?_, ?_, ?_⟩ <;> unfold bumpN
  · split <;> omega
  · split <;> omega
  · rw [if_pos rfl]

theorem finishEof_mono (a : Actions) (st : St) (k : Cat) :
    st.seen k ≤ (finishEof a st).seen k ∧
    st.fixed k ≤ (finishEof a st).fixed k ∧
    (finishEof a st).fixed k + st.seen k ≤
      st.fixed k + (finishEof a st).seen k := by
  unfold finishEof
  dsimp only
  split
  · split
    · split
      · dsimp only
        by_cases hk : k = Cat.eof_blanks
        · subst hk
          have h1 := bumpN_facts st.seen Cat.eof_blanks Cat.eof_blanks st.buffer.length
          have h2 := bumpN_facts st.fixed Cat.eof_blanks Cat.eof_blanks st.buffer.length
          exact ⟨by omega, by omega, by omega⟩
        · unfold bumpN
          rw [if_neg hk, if_neg hk]
          exact ⟨le_refl _, le_refl _, le_refl _⟩
      · dsimp only
        have h1 := bumpN_facts st.seen Cat.eof_blanks k st.buffer.length
        exact ⟨h1.1, le_refl _, by omega⟩
    · exact ⟨le_refl _, le_refl _, le_refl _⟩
  · exact ⟨le_refl _, le_refl _, le_refl _⟩

theorem run_fixed_le_seen (a : Actions) (co : Option (List Char))
    (ls : List Char) (lines : List (List Char)) (k : Cat) :
    (run a co ls lines).fixed k ≤ (run a co ls lines).seen k := by
  have h1 := runGo_mono a co ls lines 1 initSt k
  have h2 := finishEof_mono a (runGo a co ls 1 initSt lines) k
  have hz1 : initSt.seen k = 0 := rfl
  have hz2 : initSt.fixed k = 0 := rfl
  unfold run
  omega

theorem totalFixed_le_totalSeen (a : Actions) (co : Option (List Char))
    (ls : List Char) (lines : List (List Char)) :
    totalFixed (run a co ls lines) ≤ totalSeen (run a co ls lines) := by
  unfold totalFixed totalSeen
  apply List.sum_le_sum
  intro k _
  exact run_fixed_le_seen a co ls lines k

theorem sumFixed_le_sumSeen (a : Actions) (co : Option (List Char))
    (ls : List Char) (files : List (List (List Char))) :
    sumFixed a co ls files ≤ sumSeen a co ls files := by
  unfold sumFixed sumSeen
  apply List.sum_le_sum
  intro f _
  exact totalFixed_le_totalSeen a co ls f

/- ### Claim C7 -/

/-- C7: for every issue category, every input stream and every
configuration, after processing one file the counters satisfy
fixed[k] ≤ seen[k]. -/
theorem c7_fixed_le_seen (a : Actions) (coerce : Option (List Char))
    (linesep : List Char) (lines : List (List Char)) (k : Cat) :
    (run a coerce linesep lines).fixed k ≤ (run a coerce linesep lines).seen k :=
  run_fixed_le_seen a coerce linesep lines k

/- ### Claim C3 -/

/-- C3: with exit codes enabled, the process exit status derived from the
per-category seen/fixed totals summed across all files is 0 when no issues
were seen, 10 when issues were seen and all were fixed, and 20 when fewer
were fixed than seen; moreover the totals always satisfy fixed ≤ seen, so
these three cases are exhaustive. -/
theorem c3_exit_codes (a : Actions) (coerce : Option (List Char))
    (linesep : List Char) (files : List (List (List Char))) :
    sumFixed a coerce linesep files ≤ sumSeen a coerce linesep files ∧
    (sumSeen a coerce linesep files = 0 →
      exitCode false (sumSeen a coerce linesep files)
        (sumFixed a coerce linesep files) = 0) ∧
    (0 < sumSeen a coerce linesep files →
      sumSeen a coerce linesep files = sumFixed a coerce linesep files →
      exitCode false (sumSeen a coerce linesep files)
        (sumFixed a coerce linesep files) = 10) ∧
    (sumFixed a coerce linesep files < sumSeen a coerce linesep files →
      exitCode false (sumSeen a coerce linesep files)
        (sumFixed a coerce linesep files) = 20) := by
  refine ⟨sumFixed_le_sumSeen a coerce linesep files, ?_, ?_, ?_⟩
  · intro h0
    unfold exitCode
    have hle := sumFixed_le_sumSeen a coerce linesep files
    rw [if_neg (by simp), if_neg (by omega), if_neg (by omega)]
  · intro hpos heq
    unfold exitCode
    rw [if_neg (by simp), if_neg (by omega), if_pos hpos]
  · intro hlt
    unfold exitCode
    rw [if_neg (by simp), if_pos hlt]

/- ### Lemmas about pyReplace -/

theorem getLast_cons_of_ne_nil {l : List Char} (c : Char) (h : l ≠ []) :
    (c :: l).getLast? = l.getLast? := by
  have h2 : (c :: l) = [c] ++ l := rfl
  rw [h2, List.getLast?_append_of_ne_nil _ h]

theorem pyReplaceGoF_congr (p : Char) (ps rep : List Char) :
    ∀ (f1 f2 : Nat) (s : List Char), s.length ≤ f1 → s.length ≤ f2 →
      pyReplaceGoF p ps rep f1 s = pyReplaceGoF p ps rep f2 s := by
  intro f1
  induction f1 with
  | zero =>
    intro f2 s h1 _
    have hs : s = [] := List.eq_nil_of_length_eq_zero (by omega)
    subst hs
    cases f2 <;> rfl
  | succ f ih =>
    intro f2 s h1 h2
    cases s with
    | nil => cases f2 <;> rfl
    | cons c cs =>
      cases f2 with
      | zero => simp at h2
      | succ f2' =>
        simp only [pyReplaceGoF]
        simp only [List.length_cons] at h1 h2
        by_cases hc : c = p ∧ ps.isPrefixOf cs
        · rw [if_pos hc, if_pos hc]
          congr 1
          apply ih
          · simp only [List.length_drop]
            omega
          · simp only [List.length_drop]
            omega
        · rw [if_neg hc, if_neg hc]
          congr 1
          apply ih <;> omega

theorem pyReplaceGo_nil (p : Char) (ps rep : List Char) :
    pyReplaceGo p ps rep [] = [] := rfl

theorem pyReplaceGo_cons (p : Char) (ps rep : List Char) (c : Char)
    (cs : List Char) :
    pyReplaceGo p ps rep (c :: cs) =
      if c = p ∧ ps.isPrefixOf cs then
        rep ++ pyReplaceGo p ps rep (cs.drop ps.length)
      else c :: pyReplaceGo p ps rep cs := by
  unfold pyReplaceGo
  show pyReplaceGoF p ps rep (cs.length + 1) (c :: cs) = _
  simp only [pyReplaceGoF]
  by_cases hc : c = p ∧ ps.isPrefixOf cs
  · rw [if_pos hc, if_pos hc]
    congr 1
    apply pyReplaceGoF_congr
    · simp only [List.length_drop]
      omega
    · exact le_refl _
  · rw [if_neg hc, if_neg hc]

theorem pyReplaceGo_ind (p : Char) (ps _rep : List Char)
    (motive : List Char → Prop)
    (hnil : motive [])
    (hhit : ∀ c cs, (c = p ∧ ps.isPrefixOf cs) → motive (cs.drop ps.length) →
      motive (c :: cs))
    (hmiss : ∀ c cs, ¬ (c = p ∧ ps.isPrefixOf cs) → motive cs →
      motive (c :: cs)) :
    ∀ s, motive s := by
  have H : ∀ n s, s.length ≤ n → motive s := by
    intro n
    induction n with
    | zero =>
      intro s h
      have hs : s = [] := List.eq_nil_of_length_eq_zero (by omega)
      subst hs
      exact hnil
    | succ n ih =>
      intro s h
      cases s with
      | nil => exact hnil
      | cons c cs =>
        simp only [List.length_cons] at h
        by_cases hc : c = p ∧ ps.isPrefixOf cs
        · refine hhit c cs hc (ih _ ?_)
          simp only [List.length_drop]
          omega
        · exact hmiss c cs hc (ih _ (by omega))
  exact fun s => H s.length s (le_refl _)

theorem pyReplaceGo_mem (p : Char) (ps rep : List Char) (s : List Char) :
    ∀ c ∈ pyReplaceGo p ps rep s, c ∈ s ∨ c ∈ rep := by
  induction s using pyReplaceGo_ind p ps rep with
  | hnil => simp [pyReplaceGo_nil]
  | hhit c cs h ih =>
    intro x hx
    rw [pyReplaceGo_cons, if_pos h] at hx
    rcases List.mem_append.1 hx with hx | hx
    · exact Or.inr hx
    · rcases ih x hx with hx2 | hx2
      · exact Or.inl (List.mem_cons_of_mem c (List.mem_of_mem_drop hx2))
      · exact Or.inr hx2
  | hmiss c cs h ih =>
    intro x hx
    rw [pyReplaceGo_cons, if_neg h] at hx
    rcases List.mem_cons.1 hx with hx | hx
    · exact Or.inl (hx ▸ List.mem_cons_self c cs)
    · rcases ih x hx with hx2 | hx2
      · exact Or.inl (List.mem_cons_of_mem c hx2)
      · exact Or.inr hx2

theorem pyReplaceGo_single_not_mem (p : Char) (rep : List Char)
    (h : p ∉ rep) : ∀ s, p ∉ pyReplaceGo p [] rep s := by
  intro s
  induction s using pyReplaceGo_ind p [] rep with
  | hnil => simp [pyReplaceGo_nil]
  | hhit c cs hc ih =>
    rw [pyReplaceGo_cons, if_pos hc]
    intro hx
    rcases List.mem_append.1 hx with hx | hx
    · exact h hx
    · exact ih hx
  | hmiss c cs hc ih =>
    rw [pyReplaceGo_cons, if_neg hc]
    intro hx
    rcases List.mem_cons.1 hx with hx | hx
    · exact hc ⟨hx.symm, by cases cs <;> rfl⟩
    · exact ih hx

theorem pyReplaceGo_not_infix (p : Char) (ps rep : List Char) :
    ∀ s, ¬ ((p :: ps) <:+: s) → pyReplaceGo p ps rep s = s := by
  intro s
  induction s using pyReplaceGo_ind p ps rep with
  | hnil => intro _; rfl
  | hhit c cs hc ih =>
    intro hinf
    exfalso
    apply hinf
    apply List.IsPrefix.isInfix
    obtain ⟨u, hu⟩ := List.isPrefixOf_iff_prefix.1 hc.2
    refine ⟨u, ?_⟩
    rw [List.cons_append, hu, hc.1]
  | hmiss c cs hc ih =>
    intro hinf
    rw [pyReplaceGo_cons, if_neg hc, ih]
    intro hinf2
    exact hinf (List.infix_cons hinf2)

theorem pyReplaceGo_single_getLast (p : Char) (rep : List Char) :
    ∀ (s : List Char) (x : Char), s.getLast? = some x → x ≠ p →
      (pyReplaceGo p [] rep s).getLast? = some x := by
  intro s
  induction s using pyReplaceGo_ind p [] rep with
  | hnil => intro x hx _; simp at hx
  | hhit c cs hc ih =>
    intro x hx hxp
    rw [pyReplaceGo_cons, if_pos hc]
    by_cases hcs : cs = []
    · subst hcs
      simp only [List.getLast?_singleton, Option.some_inj] at hx
      exact absurd (hx.symm.trans hc.1) hxp
    · rw [getLast_cons_of_ne_nil _ hcs] at hx
      have hgo := ih x hx hxp
      have hne : pyReplaceGo p [] rep (cs.drop (List.length ([] : List Char))) ≠ [] := by
        intro hn
        rw [hn] at hgo
        simp at hgo
      rw [List.getLast?_append_of_ne_nil _ hne]
      exact hgo
  | hmiss c cs hc ih =>
    intro x hx hxp
    rw [pyReplaceGo_cons, if_neg hc]
    by_cases hcs : cs = []
    · subst hcs
      simp at hx
      subst hx
      rfl
    · rw [getLast_cons_of_ne_nil _ hcs] at hx
      have hgo := ih x hx hxp
      have hne : pyReplaceGo p [] rep cs ≠ [] := by
        intro hn
        rw [hn] at hgo
        simp at hgo
      rw [getLast_cons_of_ne_nil _ hne]
      exact hgo

theorem pyReplaceGo_single_head (p : Char) (rep : List Char) (c : Char)
    (cs : List Char) (h : c ≠ p) :
    pyReplaceGo p [] rep (c :: cs) = c :: pyReplaceGo p [] rep cs := by
  rw [pyReplaceGo_cons, if_neg]
  intro hc
  exact h hc.1

theorem pyReplace_spaces_eq (n : Nat) (hn : 1 ≤ n) (s rep : List Char) :
    pyReplace s (spaces n) rep = pyReplaceGo ' ' (spaces (n - 1)) rep s := by
  obtain ⟨m, rfl⟩ : ∃ m, n = m + 1 := ⟨n - 1, by omega⟩
  have hsp : spaces (m + 1) = ' ' :: spaces m := by
    unfold spaces
    rw [List.replicate_succ]
  rw [hsp]
  rfl

theorem pyReplace_tab_eq (s rep : List Char) :
    pyReplace s ['\t'] rep = pyReplaceGo '\t' [] rep s := rfl

theorem mixedCond_tab_mem {i : List Char} (h : mixedCond i = true) :
    '\t' ∈ i := by
  unfold mixedCond at h
  rcases Bool.or_eq_true_iff.1 h with h2 | h2
  · have h3 := of_decide_eq_true h2
    exact h3.subset (by simp)
  · have h3 := of_decide_eq_true h2
    exact h3.subset (by simp)

theorem mixedCond_eq_false {i : List Char} (h : '\t' ∉ i) :
    mixedCond i = false := by
  by_contra hb
  have h2 : mixedCond i = true := by
    revert hb
    cases mixedCond i <;> simp
  exact h (mixedCond_tab_mem h2)

/- ### Stage characterization lemmas -/

theorem stageMix_fields (a : Actions) (ii : Nat) (em : Bool) (d : LineData) :
    (stageMix a ii em d).ispace = d.ispace ∧
    (stageMix a ii em d).body = d.body ∧
    (stageMix a ii em d).trail = d.trail ∧
    (stageMix a ii em d).eol = d.eol ∧
    (stageMix a ii em d).fixed = d.fixed := by
  unfold stageMix
  repeat' split
  all_goals exact ⟨rfl, rfl, rfl, rfl, rfl⟩

theorem stageWidth_fields (a : Actions) (d : LineData) :
    (stageWidth a d).body = d.body ∧
    (stageWidth a d).trail = d.trail ∧
    (stageWidth a d).eol = d.eol ∧
    (stageWidth a d).mixed = d.mixed ∧
    (stageWidth a d).evs = d.evs := by
  unfold stageWidth
  dsimp only
  repeat' split
  all_goals exact ⟨rfl, rfl, rfl, rfl, rfl⟩

theorem stageNonLead_fields (a : Actions) (d : LineData) :
    (stageNonLead a d).ispace = d.ispace ∧
    (stageNonLead a d).trail = d.trail ∧
    (stageNonLead a d).eol = d.eol ∧
    (stageNonLead a d).mixed = d.mixed ∧
    (stageNonLead a d).evs = d.evs := by
  unfold stageNonLead
  repeat' split
  all_goals exact ⟨rfl, rfl, rfl, rfl, rfl⟩

theorem stageTrail_fields (a : Actions) (d : LineData) :
    (stageTrail a d).ispace = d.ispace ∧
    (stageTrail a d).body = d.body ∧
    (stageTrail a d).eol = d.eol ∧
    (stageTrail a d).mixed = d.mixed ∧
    (stageTrail a d).evs = d.evs := by
  unfold stageTrail
  dsimp only
  repeat' split
  all_goals exact ⟨rfl, rfl, rfl, rfl, rfl⟩

theorem stageEol_fields (a : Actions) (co : Option (List Char)) (ls : List Char)
    (fe : Option (List Char)) (ii : Nat) (em : Bool) (d : LineData) :
    (stageEol a co ls fe ii em d).ispace = d.ispace ∧
    (stageEol a co ls fe ii em d).body = d.body ∧
    (stageEol a co ls fe ii em d).trail = d.trail ∧
    (stageEol a co ls fe ii em d).mixed = d.mixed := by
  unfold stageEol
  dsimp only
  repeat' split
  all_goals exact ⟨rfl, rfl, rfl, rfl⟩

theorem stageMix_notMixed (a : Actions) (ii : Nat) (em : Bool) (d : LineData)
    (h : mixedCond d.ispace = false) :
    stageMix a ii em d = d ∨
      stageMix a ii em d = { d with mixed := some false } := by
  unfold stageMix
  split
  · rw [if_neg (by simp [h])]
    exact Or.inr rfl
  · exact Or.inl rfl

theorem stageNonLead_none (a : Actions) (d : LineData)
    (h : a.change_non_leading_tabs = none) : stageNonLead a d = d := by
  unfold stageNonLead
  rw [h]

theorem stageNonLead_noTab (a : Actions) (d : LineData)
    (h : '\t' ∉ d.body) : stageNonLead a d = d := by
  unfold stageNonLead
  split
  · rw [if_neg]
    intro hc
    exact h hc.2
  · rfl

theorem stageTrail_off (a : Actions) (d : LineData)
    (h : a.trail_space = .ignore) : stageTrail a d = d := by
  unfold stageTrail
  rw [h]
  rfl

theorem stageTrail_nil (a : Actions) (d : LineData)
    (h : d.trail = []) : stageTrail a d = d := by
  unfold stageTrail
  dsimp only
  split
  · rw [if_neg (by simp [h])]
  · rfl

theorem stageTrail_fix (a : Actions) (d : LineData)
    (ha : a.trail_space = .fix) (h : d.trail ≠ []) :
    stageTrail a d =
      { d with trail := [], seen := bump d.seen .trail_space,
               fixed := bump d.fixed .trail_space } := by
  simp [stageTrail, ha, Act.on, h]

theorem stageWidth_none (a : Actions) (d : LineData)
    (hct : a.change_tabs = none) (hcs : a.change_spaces = none) :
    stageWidth a d = d := by
  unfold stageWidth
  rw [hct, hcs]

theorem stageWidth_ct_noTab (a : Actions) (d : LineData) (n : Nat)
    (hct : a.change_tabs = some n) (h : '\t' ∉ d.ispace) :
    stageWidth a d = d := by
  unfold stageWidth
  rw [hct]
  dsimp only
  rw [if_neg h]

theorem stageWidth_cs_noSpace (a : Actions) (d : LineData) (n : Nat)
    (hct : a.change_tabs = none) (hcs : a.change_spaces = some n)
    (h : ' ' ∉ d.ispace) :
    stageWidth a d = d := by
  unfold stageWidth
  rw [hct, hcs]
  dsimp only
  rw [if_neg h]

theorem stageWidth_cs_apply (a : Actions) (d : LineData) (n : Nat)
    (hct : a.change_tabs = none) (hcs : a.change_spaces = some n)
    (hsp : ' ' ∈ d.ispace) (hmx : d.mixed ≠ some true) :
    stageWidth a d =
      { d with ispace := pyReplace d.ispace (spaces n) ['\t'],
               seen := bump d.seen .change_spaces,
               fixed := bump d.fixed .change_spaces } := by
  unfold stageWidth
  rw [hct, hcs]
  dsimp only
  rw [if_pos hsp, if_neg (by simp [hmx]), if_pos hmx]

theorem stageWidth_ct_apply (a : Actions) (d : LineData) (n : Nat)
    (hct : a.change_tabs = some n) (htab : '\t' ∈ d.ispace)
    (hmx : d.mixed = some true → a.tab_space_mix = .fix) :
    (stageWidth a d).ispace = pyReplace d.ispace ['\t'] (spaces n) := by
  unfold stageWidth
  rw [hct]
  dsimp only
  rw [if_pos htab]
  by_cases hm : d.mixed = some true
  · rw [if_pos ⟨hm, hmx hm⟩]
  · rw [if_neg (by simp [hm]), if_pos hm]

theorem stageEol_ignore (a : Actions) (ls : List Char)
    (fe : Option (List Char)) (ii : Nat) (em : Bool) (d : LineData)
    (hn : a.eof_newl = .ignore) (hm : a.match_eol = .ignore) :
    stageEol a none ls fe ii em d = d := by
  unfold stageEol
  split
  · rw [hn]
    rfl
  · rw [hm]
    dsimp only
    rw [if_neg (by simp [Act.on])]

theorem stageNonLead_other (a : Actions) (d : LineData) (k : Cat)
    (h : k ≠ Cat.change_non_leading_tabs) :
    (stageNonLead a d).seen k = d.seen k ∧
      (stageNonLead a d).fixed k = d.fixed k := by
  unfold stageNonLead
  repeat' split
  all_goals refine ⟨?_, ?_⟩ <;> first
    | rfl
    | exact bump_other h

theorem stageTrail_other (a : Actions) (d : LineData) (k : Cat)
    (h : k ≠ Cat.trail_space) :
    (stageTrail a d).seen k = d.seen k ∧
      (stageTrail a d).fixed k = d.fixed k := by
  unfold stageTrail
  dsimp only
  repeat' split
  all_goals refine ⟨?_, ?_⟩ <;> first
    | rfl
    | exact bump_other h

theorem stageEol_other (a : Actions) (co : Option (List Char)) (ls : List Char)
    (fe : Option (List Char)) (ii : Nat) (em : Bool) (d : LineData) (k : Cat)
    (h1 : k ≠ Cat.eof_newl) (h2 : k ≠ Cat.match_eol)
    (h3 : k ≠ Cat.coerce_eol) :
    (stageEol a co ls fe ii em d).seen k = d.seen k ∧
      (stageEol a co ls fe ii em d).fixed k = d.fixed k := by
  unfold stageEol
  dsimp only
  repeat' split
  all_goals refine ⟨?_, ?_⟩ <;>
    simp only [bump] <;> split_ifs <;> simp_all

theorem act_fix_or_ignore {x : Act} (h : x ≠ Act.report) :
    x = Act.fix ∨ x = Act.ignore := by
  cases x
  · exact Or.inl rfl
  · exact absurd rfl h
  · exact Or.inr rfl

theorem stageEol_eol_value (a : Actions) (co : Option (List Char))
    (ls : List Char) (fe : Option (List Char)) (ii : Nat) (em : Bool)
    (d : LineData) (hen : a.eof_newl ≠ Act.report)
    (hme : a.match_eol ≠ Act.report) :
    (stageEol a co ls fe ii em d).eol = expectedEol a co ls fe d.eol := by
  by_cases he : d.eol = []
  · by_cases hf : a.eof_newl = Act.fix
    · have hon : a.eof_newl.on = true := by rw [hf]; rfl
      unfold stageEol expectedEol
      rw [if_pos he, if_pos hon, if_pos hf, if_pos he, if_pos hf]
      dsimp only
      cases co with
      | some ce => rfl
      | none =>
        by_cases hg : fe.getD [] ≠ []
        · rw [if_pos hg, if_pos hg]
        · rw [if_neg hg, if_neg hg]
    · have hig : a.eof_newl = Act.ignore := by
        rcases act_fix_or_ignore hen with h2 | h2
        · exact absurd h2 hf
        · exact h2
      have hon : ¬ (a.eof_newl.on = true) := by rw [hig]; simp [Act.on]
      unfold stageEol expectedEol
      rw [if_pos he, if_pos he, if_neg hon, if_neg hf]
      exact he
  · unfold stageEol expectedEol
    rw [if_neg he, if_neg he]
    dsimp only
    by_cases hm : a.match_eol = Act.fix ∧ some d.eol ≠ fe
    · have hcond : some d.eol ≠ fe ∧ a.match_eol.on = true :=
        ⟨hm.2, by rw [hm.1]; rfl⟩
      rw [if_pos hcond, if_pos hm.1, if_pos hm]
      cases co with
      | none => rfl
      | some ce =>
        dsimp only
        by_cases hce : fe.getD [] ≠ ce
        · rw [if_pos hce]
        · rw [if_neg hce]
          dsimp only
          exact not_ne_iff.1 hce
    · have hcond : ¬ (some d.eol ≠ fe ∧ a.match_eol.on = true) := by
        rintro ⟨h1, h2⟩
        apply hm
        refine ⟨?_, h1⟩
        rcases act_fix_or_ignore hme with h3 | h3
        · exact h3
        · rw [h3] at h2
          simp [Act.on] at h2
      rw [if_neg hcond, if_neg hm]
      cases co with
      | none => rfl
      | some ce =>
        dsimp only
        by_cases hce : d.eol ≠ ce
        · rw [if_pos hce]
        · rw [if_neg hce]
          exact not_ne_iff.1 hce

theorem spaces_no_tab (n : Nat) : '\t' ∉ spaces n := by
  unfold spaces
  intro h
  have := List.eq_of_mem_replicate h
  simp at this

theorem spaces_ws (n : Nat) : ∀ c ∈ spaces n, isWs c = true ∧ c ≠ '\n' := by
  intro c hc
  have := List.eq_of_mem_replicate hc
  subst this
  exact ⟨by decide, by decide⟩

theorem stageMix_mixed_imp (a : Actions) (ii : Nat) (em : Bool) (d : LineData) :
    (stageMix a ii em d).mixed = some true →
      a.tab_space_mix.on = true ∨ d.mixed = some true := by
  unfold stageMix
  split
  next hon =>
    split
    · intro _
      exact Or.inl hon
    · intro h
      simp at h
  · intro h
    exact Or.inr h

theorem stageWidth_ispace_ok (a : Actions) (d : LineData)
    (hcs : a.change_spaces = none)
    (hmx : d.mixed = some true → a.tab_space_mix = Act.fix) :
    ((stageWidth a d).ispace = d.ispace ∧ a.change_tabs = none) ∨
    (∃ n, a.change_tabs = some n ∧
      ((stageWidth a d).ispace = pyReplace d.ispace ['\t'] (spaces n) ∨
       ((stageWidth a d).ispace = d.ispace ∧ '\t' ∉ d.ispace))) := by
  cases hct : a.change_tabs with
  | none =>
    left
    rw [stageWidth_none a d hct hcs]
    exact ⟨rfl, rfl⟩
  | some n =>
    right
    refine ⟨n, rfl, ?_⟩
    by_cases htab : '\t' ∈ d.ispace
    · exact Or.inl (stageWidth_ct_apply a d n hct htab hmx)
    · rw [stageWidth_ct_noTab a d n hct htab]
      exact Or.inr ⟨rfl, htab⟩

theorem stageNonLead_body_ok (a : Actions) (d : LineData) :
    ((stageNonLead a d).body = d.body ∧
      (a.change_non_leading_tabs = none ∨ '\t' ∉ d.body)) ∨
    (∃ m, a.change_non_leading_tabs = some m ∧ d.body ≠ [] ∧ '\t' ∈ d.body ∧
      (stageNonLead a d).body = pyReplace d.body ['\t'] (spaces m)) := by
  cases hnl : a.change_non_leading_tabs with
  | none =>
    left
    rw [stageNonLead_none a d hnl]
    exact ⟨rfl, Or.inl rfl⟩
  | some m =>
    by_cases hcond : d.body ≠ [] ∧ '\t' ∈ d.body
    · right
      refine ⟨m, rfl, hcond.1, hcond.2, ?_⟩
      unfold stageNonLead
      rw [hnl]
      dsimp only
      rw [if_pos hcond]
    · left
      constructor
      · unfold stageNonLead
        rw [hnl]
        dsimp only
        rw [if_neg hcond]
      · right
        intro htab
        by_cases hb : d.body = []
        · rw [hb] at htab
          simp at htab
        · exact hcond ⟨hb, htab⟩

theorem stageTrail_trail_ok (a : Actions) (d : LineData)
    (hts : a.trail_space ≠ Act.report) :
    (a.trail_space = Act.fix → (stageTrail a d).trail = []) ∧
    (a.trail_space ≠ Act.fix → (stageTrail a d).trail = d.trail) := by
  constructor
  · intro hfix
    by_cases ht : d.trail = []
    · rw [stageTrail_nil a d ht, ht]
    · rw [stageTrail_fix a d hfix ht]
  · intro hnfix
    have hig : a.trail_space = Act.ignore := by
      rcases act_fix_or_ignore hts with h2 | h2
      · exact absurd h2 hnfix
      · exact h2
    rw [stageTrail_off a d hig]

theorem pipeline_ispace_eq (a : Actions) (co : Option (List Char))
    (ls : List Char) (fe : Option (List Char)) (ii : Nat) (em : Bool)
    (d : LineData) :
    (pipeline a co ls fe ii em d).ispace =
      (stageWidth a (stageMix a ii em d)).ispace := by
  unfold pipeline
  rw [(stageEol_fields a co ls fe ii em _).1, (stageTrail_fields a _).1,
    (stageNonLead_fields a _).1]

theorem pipeline_body_eq (a : Actions) (co : Option (List Char))
    (ls : List Char) (fe : Option (List Char)) (ii : Nat) (em : Bool)
    (d : LineData) :
    (pipeline a co ls fe ii em d).body =
      (stageNonLead a (stageWidth a (stageMix a ii em d))).body := by
  unfold pipeline
  rw [(stageEol_fields a co ls fe ii em _).2.1, (stageTrail_fields a _).2.1]

theorem pipeline_trail_eq (a : Actions) (co : Option (List Char))
    (ls : List Char) (fe : Option (List Char)) (ii : Nat) (em : Bool)
    (d : LineData) :
    (pipeline a co ls fe ii em d).trail =
      (stageTrail a (stageNonLead a (stageWidth a (stageMix a ii em d)))).trail := by
  unfold pipeline
  rw [(stageEol_fields a co ls fe ii em _).2.2.1]

theorem pipeline_eol_eq (a : Actions) (co : Option (List Char))
    (ls : List Char) (fe : Option (List Char)) (ii : Nat) (em : Bool)
    (d : LineData) (hen : a.eof_newl ≠ Act.report)
    (hme : a.match_eol ≠ Act.report) :
    (pipeline a co ls fe ii em d).eol = expectedEol a co ls fe d.eol := by
  unfold pipeline
  rw [stageEol_eol_value a co ls fe ii em _ hen hme,
    (stageTrail_fields a _).2.2.1, (stageNonLead_fields a _).2.2.1,
    (stageWidth_fields a _).2.2.1, (stageMix_fields a ii em _).2.2.2.1]

theorem expectedEol_none_noMatch (a : Actions) (ls : List Char)
    (fe : Option (List Char)) (e : List Char)
    (h : a.match_eol ≠ Act.fix) (he : e ≠ []) :
    expectedEol a none ls fe e = e := by
  unfold expectedEol
  rw [if_neg he]
  dsimp only
  rw [if_neg]
  intro hc
  exact h hc.1

theorem expectedEol_cases (a : Actions) (co : Option (List Char))
    (ls : List Char) (fe : Option (List Char)) (e : List Char)
    (hco : co = none ∨ co = some ['\n'] ∨ co = some ['\r', '\n'])
    (hls : ls = ['\n'] ∨ ls = ['\r', '\n'])
    (hfe : fe.getD [] = [] ∨ fe.getD [] = ['\n'] ∨ fe.getD [] = ['\r'] ∨
      fe.getD [] = ['\r', '\n'])
    (he : e = [] ∨ e = ['\n'] ∨ e = ['\r'] ∨ e = ['\r', '\n']) :
    expectedEol a co ls fe e = [] ∨ expectedEol a co ls fe e = ['\n'] ∨
      expectedEol a co ls fe e = ['\r'] ∨
      expectedEol a co ls fe e = ['\r', '\n'] := by
  unfold expectedEol
  split
  · split
    · rcases hco with hco | hco | hco <;> rw [hco]
      · dsimp only
        split
        · exact hfe
        · rcases hls with hls | hls <;> rw [hls]
          · exact Or.inr (Or.inl rfl)
          · exact Or.inr (Or.inr (Or.inr rfl))
      · exact Or.inr (Or.inl rfl)
      · exact Or.inr (Or.inr (Or.inr rfl))
    · exact Or.inl rfl
  · rcases hco with hco | hco | hco <;> rw [hco]
    · dsimp only
      split
      · exact hfe
      · exact he
    · exact Or.inr (Or.inl rfl)
    · exact Or.inr (Or.inr (Or.inr rfl))

theorem lineOut_chunkOK (a : Actions) (co : Option (List Char)) (ls : List Char)
    (ii : Nat) (st : St) (l : List Char)
    (hcfg : GoodCfg a co ls) (hgen : Genuine l)
    (hfe : (nextFe st l).getD [] = [] ∨ (nextFe st l).getD [] = ['\n'] ∨
      (nextFe st l).getD [] = ['\r'] ∨ (nextFe st l).getD [] = ['\r', '\n']) :
    BaseOK (lineOut a co ls ii st l).ispace (lineOut a co ls ii st l).body
      (lineOut a co ls ii st l).trail (lineOut a co ls ii st l).eol ∧
    (a.trail_space = Act.fix → (lineOut a co ls ii st l).trail = []) ∧
    (a.change_tabs ≠ none → '\t' ∉ (lineOut a co ls ii st l).ispace) ∧
    (a.change_non_leading_tabs ≠ none → '\t' ∉ (lineOut a co ls ii st l).body) ∧
    ((lineOut a co ls ii st l).body = [] ↔ (decompose l).2.1 = []) ∧
    (lineOut a co ls ii st l).eol =
      expectedEol a co ls (nextFe st l) (lineEol l) := by
  have h0 := decompose_baseOK l hgen
  have hm1 : (stageMix a ii ((decompose l).2.1.isEmpty)
      (initLD ii st l)).mixed = some true → a.tab_space_mix = Act.fix := by
    intro h
    rcases stageMix_mixed_imp a ii _ _ h with hon | hmx
    · rcases act_fix_or_ignore hcfg.tsm with h2 | h2
      · exact h2
      · rw [h2] at hon
        simp [Act.on] at hon
    · simp [initLD] at hmx
  have hi1 : (stageMix a ii ((decompose l).2.1.isEmpty)
      (initLD ii st l)).ispace = (decompose l).1 :=
    (stageMix_fields a ii _ _).1
  have hw := stageWidth_ispace_ok a
    (stageMix a ii ((decompose l).2.1.isEmpty) (initLD ii st l)) hcfg.hcs hm1
  have hiv : (lineOut a co ls ii st l).ispace =
      (stageWidth a (stageMix a ii ((decompose l).2.1.isEmpty)
        (initLD ii st l))).ispace :=
    pipeline_ispace_eq a co ls (nextFe st l) ii ((decompose l).2.1.isEmpty)
      (initLD ii st l)
  have hiF : (∀ c ∈ (lineOut a co ls ii st l).ispace,
        isWs c = true ∧ c ≠ '\n') ∧
      ((decompose l).1 = [] → (lineOut a co ls ii st l).ispace = []) ∧
      (a.change_tabs ≠ none → '\t' ∉ (lineOut a co ls ii st l).ispace) := by
    rw [hiv]
    rcases hw with ⟨hval, hct⟩ | ⟨n, hct, hval | ⟨hval, htab⟩⟩
    · rw [hval, hi1]
      exact ⟨fun c hc => ⟨h0.hiws c hc, fun hn => h0.hinl (hn ▸ hc)⟩,
        fun h => h, fun hctn => absurd hct hctn⟩
    · rw [hval, hi1]
      refine ⟨?_, ?_, ?_⟩
      · intro c hc
        rw [pyReplace_tab_eq] at hc
        rcases pyReplaceGo_mem _ _ _ _ c hc with hc2 | hc2
        · exact ⟨h0.hiws c hc2, fun hn => h0.hinl (hn ▸ hc2)⟩
        · exact spaces_ws n c hc2
      · intro hnil
        rw [hnil, pyReplace_tab_eq, pyReplaceGo_nil]
      · intro _
        rw [pyReplace_tab_eq]
        exact pyReplaceGo_single_not_mem '\t' (spaces n) (spaces_no_tab n) _
    · rw [hval, hi1]
      rw [hi1] at htab
      exact ⟨fun c hc => ⟨h0.hiws c hc, fun hn => h0.hinl (hn ▸ hc)⟩,
        fun h => h, fun _ => htab⟩
  have hbch : (stageWidth a (stageMix a ii ((decompose l).2.1.isEmpty)
      (initLD ii st l))).body = (decompose l).2.1 := by
    rw [(stageWidth_fields a _).1, (stageMix_fields a ii _ _).2.1]
    rfl
  have hbv : (lineOut a co ls ii st l).body =
      (stageNonLead a (stageWidth a (stageMix a ii
        ((decompose l).2.1.isEmpty) (initLD ii st l)))).body :=
    pipeline_body_eq a co ls (nextFe st l) ii ((decompose l).2.1.isEmpty)
      (initLD ii st l)
  have hb := stageNonLead_body_ok a
    (stageWidth a (stageMix a ii ((decompose l).2.1.isEmpty) (initLD ii st l)))
  have hbF : (∀ c, (lineOut a co ls ii st l).body.head? = some c →
        isWs c = false) ∧
      (∀ c, (lineOut a co ls ii st l).body.getLast? = some c →
        isWs c = false) ∧
      '\n' ∉ (lineOut a co ls ii st l).body ∧
      ((lineOut a co ls ii st l).body = [] ↔ (decompose l).2.1 = []) ∧
      (a.change_non_leading_tabs ≠ none →
        '\t' ∉ (lineOut a co ls ii st l).body) := by
    rw [hbv]
    rw [hbch] at hb
    rcases hb with ⟨hval, hcase⟩ | ⟨m, hnl, hne, htab, hval⟩
    · rw [hval]
      refine ⟨h0.hbh, h0.hbl, h0.hbnl, Iff.rfl, fun hnln => ?_⟩
      rcases hcase with hcase | hcase
      · exact absurd hcase hnln
      · exact hcase
    · rw [hval]
      obtain ⟨c0, bs, hb0⟩ := List.exists_cons_of_ne_nil hne
      have hc0 : isWs c0 = false := by
        apply h0.hbh
        rw [hb0]
        rfl
      have hc0t : c0 ≠ '\t' := by
        intro hc
        rw [hc] at hc0
        simp [isWs] at hc0
      obtain ⟨cl, hcl⟩ : ∃ cl, (decompose l).2.1.getLast? = some cl := by
        rw [hb0]
        exact ⟨(c0 :: bs).getLast (by simp), List.getLast?_eq_getLast _ _⟩
      have hclw : isWs cl = false := h0.hbl cl hcl
      have hclt : cl ≠ '\t' := by
        intro hc
        rw [hc] at hclw
        simp [isWs] at hclw
      have hhead : pyReplace (decompose l).2.1 ['\t'] (spaces m) =
          c0 :: pyReplaceGo '\t' [] (spaces m) bs := by
        rw [pyReplace_tab_eq, hb0]
        exact pyReplaceGo_single_head '\t' (spaces m) c0 bs hc0t
      have hlast : (pyReplace (decompose l).2.1 ['\t'] (spaces m)).getLast? =
          some cl := by
        rw [pyReplace_tab_eq]
        exact pyReplaceGo_single_getLast '\t' (spaces m) _ cl hcl hclt
      refine ⟨?_, ?_, ?_, ?_, ?_⟩
      · intro c hc
        rw [hhead] at hc
        simp only [List.head?_cons, Option.some_inj] at hc
        exact hc ▸ hc0
      · intro c hc
        rw [hlast] at hc
        simp only [Option.some_inj] at hc
        exact hc ▸ hclw
      · intro hmem
        rw [pyReplace_tab_eq] at hmem
        rcases pyReplaceGo_mem _ _ _ _ _ hmem with h2 | h2
        · exact h0.hbnl h2
        · exact absurd ((spaces_ws m _ h2).2) (by simp)
      · constructor
        · intro hnil
          rw [hhead] at hnil
          simp at hnil
        · intro hnil
          exact absurd hnil hne
      · intro _
        rw [pyReplace_tab_eq]
        exact pyReplaceGo_single_not_mem '\t' (spaces m) (spaces_no_tab m) _
  have htch : (stageNonLead a (stageWidth a (stageMix a ii
      ((decompose l).2.1.isEmpty) (initLD ii st l)))).trail =
      (decompose l).2.2.1 := by
    rw [(stageNonLead_fields a _).2.1, (stageWidth_fields a _).2.1,
      (stageMix_fields a ii _ _).2.2.1]
    rfl
  have htv : (lineOut a co ls ii st l).trail =
      (stageTrail a (stageNonLead a (stageWidth a (stageMix a ii
        ((decompose l).2.1.isEmpty) (initLD ii st l))))).trail :=
    pipeline_trail_eq a co ls (nextFe st l) ii ((decompose l).2.1.isEmpty)
      (initLD ii st l)
  have ht := stageTrail_trail_ok a
    (stageNonLead a (stageWidth a (stageMix a ii ((decompose l).2.1.isEmpty)
      (initLD ii st l)))) hcfg.ts
  have htF : (lineOut a co ls ii st l).trail = [] ∨
      (lineOut a co ls ii st l).trail = (decompose l).2.2.1 := by
    rw [htv]
    by_cases htsf : a.trail_space = Act.fix
    · exact Or.inl (ht.1 htsf)
    · rw [ht.2 htsf, htch]
      exact Or.inr rfl
  have htfix : a.trail_space = Act.fix → (lineOut a co ls ii st l).trail = [] := by
    intro htsf
    rw [htv]
    exact ht.1 htsf
  have hev : (lineOut a co ls ii st l).eol =
      expectedEol a co ls (nextFe st l) (lineEol l) := by
    have h2 := pipeline_eol_eq a co ls (nextFe st l) ii
      ((decompose l).2.1.isEmpty) (initLD ii st l) hcfg.en hcfg.me
    have h3 : (initLD ii st l).eol = lineEol l := decompose_eol l
    rw [h3] at h2
    exact h2
  have heolok := expectedEol_cases a co ls (nextFe st l) (lineEol l)
    hcfg.co hcfg.lsep hfe (lineEol_cases l)
  rw [← hev] at heolok
  have hcompat : ((lineOut a co ls ii st l).eol = [] ∨
      (lineOut a co ls ii st l).eol = ['\n']) →
      (lineOut a co ls ii st l).trail.getLast? ≠ some '\r' := by
    intro hor
    rcases hcfg.trailRw with hfix | ⟨hmnf, hco⟩
    · rw [htfix hfix]
      simp
    · by_cases htsf : a.trail_space = Act.fix
      · rw [htfix htsf]
        simp
      · rw [htv, ht.2 htsf, htch]
        by_cases he : lineEol l = []
        · refine h0.hcompat ?_
          rw [decompose_eol]
          exact Or.inl he
        · have heq : (lineOut a co ls ii st l).eol = lineEol l := by
            rw [hev, hco]
            exact expectedEol_none_noMatch a ls (nextFe st l) (lineEol l)
              hmnf he
          refine h0.hcompat ?_
          rw [decompose_eol, ← heq]
          exact hor
  refine ⟨⟨fun c hc => (hiF.1 c hc).1, fun hc => ?_,
      fun c hc => ?_, fun hc => ?_,
      hbF.1, hbF.2.1, hbF.2.2.1, fun hbnil => ?_, heolok, hcompat⟩,
    htfix, hiF.2.2, hbF.2.2.2.2, hbF.2.2.2.1, hev⟩
  · exact (hiF.1 '\n' hc).2 rfl
  · rcases htF with h | h
    · rw [h] at hc
      simp at hc
    · rw [h] at hc
      exact h0.htws c hc
  · rcases htF with h | h
    · rw [h] at hc
      simp at hc
    · rw [h] at hc
      exact h0.htnl hc
  · exact hiF.2.1 (h0.hblank (hbF.2.2.2.1.mp hbnil))

theorem lineEol_of_last_nl {s : List Char} (h : s.getLast? = some '\n') :
    lineEol s = ['\n'] ∨ lineEol s = ['\r', '\n'] := by
  have hsuf : ['\n'] <:+ s := by
    have hne : s ≠ [] := by rintro rfl; simp at h
    have hsplit : s.dropLast ++ [s.getLast hne] = s :=
      List.dropLast_append_getLast hne
    have hg : s.getLast hne = '\n' := by
      rw [List.getLast?_eq_getLast _ hne] at h
      simpa using h
    exact ⟨s.dropLast, by conv_rhs => rw [← hsplit, hg]⟩
  unfold lineEol
  split
  · exact Or.inr rfl
  · rw [if_pos (List.isSuffixOf_iff_suffix.2 hsuf)]
    exact Or.inl rfl

theorem expectedEol_self (a : Actions) (co : Option (List Char))
    (ls : List Char) (E : List Char) (hE : E ≠ []) :
    expectedEol a co ls (some E) E = mainEol co ls E := by
  unfold expectedEol mainEol
  rw [if_neg hE]
  cases co with
  | some ce => rfl
  | none =>
    dsimp only
    rw [if_neg hE, if_neg]
    intro hc
    exact hc.2 rfl

theorem expectedEol_ne_nil (a : Actions) (co : Option (List Char))
    (ls : List Char) (E e : List Char)
    (hco : co = none ∨ co = some ['\n'] ∨ co = some ['\r', '\n'])
    (hls : ls = ['\n'] ∨ ls = ['\r', '\n'])
    (hE : E = [] → e = [])
    (hfix : a.eof_newl = Act.fix) :
    expectedEol a co ls (some E) e ≠ [] := by
  unfold expectedEol
  split
  next he =>
    rcases hco with hc | hc | hc <;> rw [hc]
    · dsimp only
      split
      next hE2 => exact hE2
      next => rcases hls with h2 | h2 <;> rw [h2] <;> simp
    · simp
    · simp
  next he =>
    rcases hco with hc | hc | hc <;> rw [hc]
    · dsimp only
      split
      next hcond =>
        intro h0
        exact he (hE (by simpa using h0))
      next => exact he
    · simp
    · simp

theorem expectedEol_coerce_eq (a : Actions) (ls : List Char) (ce : List Char)
    (fe : Option (List Char)) (e : List Char) :
    expectedEol a (some ce) ls fe e = ce ∨
      expectedEol a (some ce) ls fe e = [] := by
  unfold expectedEol
  split
  · split
    · exact Or.inl rfl
    · exact Or.inr rfl
  · exact Or.inl rfl

theorem expectedEol_none_matchfix (a : Actions) (ls : List Char)
    (E e : List Char) (hE : E ≠ []) (hm : a.match_eol = Act.fix) :
    expectedEol a none ls (some E) e = E ∨
      expectedEol a none ls (some E) e = [] := by
  unfold expectedEol
  split
  · split
    · dsimp only
      rw [if_pos (by simpa using hE)]
      exact Or.inl (by simp)
    · exact Or.inr rfl
  · dsimp only
    by_cases hc : some e ≠ some E
    · rw [if_pos ⟨hm, hc⟩]
      exact Or.inl (by simp)
    · rw [if_neg (fun h2 => hc h2.2)]
      left
      simpa using hc

theorem expectedEol_last_nl (a : Actions) (co : Option (List Char))
    (ls : List Char) (E e : List Char)
    (hco : co = none ∨ co = some ['\n'] ∨ co = some ['\r', '\n'])
    (hE : E = ['\n'] ∨ E = ['\r', '\n'])
    (he : e = ['\n'] ∨ e = ['\r', '\n']) :
    expectedEol a co ls (some E) e = ['\n'] ∨
      expectedEol a co ls (some E) e = ['\r', '\n'] := by
  unfold expectedEol
  rw [if_neg (by rcases he with h | h <;> rw [h] <;> simp)]
  rcases hco with hc | hc | hc <;> rw [hc]
  · dsimp only
    split
    · simpa using hE
    · exact he
  · exact Or.inl rfl
  · exact Or.inr rfl

theorem baseOK_genuine {i b t e : List Char} (h : BaseOK i b t e) :
    Genuine (i ++ b ++ t ++ e) := by
  have hibt : '\n' ∉ i ++ b ++ t := by
    intro hm
    rcases List.mem_append.1 hm with hm | hm
    · rcases List.mem_append.1 hm with hm | hm
      · exact h.hinl hm
      · exact h.hbnl hm
    · exact h.htnl hm
  unfold Genuine
  rcases h.he with he | he | he | he <;> rw [he]
  · rw [List.append_nil]
    intro hm
    exact hibt (List.dropLast_subset _ hm)
  · rw [List.dropLast_concat]
    exact hibt
  · rw [List.dropLast_concat]
    exact hibt
  · intro hm
    have h2 : i ++ b ++ t ++ ['\r', '\n'] =
        (i ++ b ++ t ++ ['\r']) ++ ['\n'] := by simp
    rw [h2, List.dropLast_concat] at hm
    rcases List.mem_append.1 hm with hm | hm
    · exact hibt hm
    · simp at hm

theorem stageMix_noop (a : Actions) (ii : Nat) (em : Bool) (d : LineData)
    (h : a.tab_space_mix.on = true → mixedCond d.ispace = false) :
    stageMix a ii em d = d ∨
      stageMix a ii em d = { d with mixed := some false } := by
  unfold stageMix
  split
  next hon =>
    rw [if_neg (by simp [h hon])]
    exact Or.inr rfl
  next => exact Or.inl rfl

theorem stageEol_noop (a : Actions) (co : Option (List Char)) (ls : List Char)
    (fe : Option (List Char)) (ii : Nat) (em : Bool) (d : LineData)
    (h1 : d.eol = [] → a.eof_newl.on = false)
    (h2 : d.eol ≠ [] → some d.eol = fe ∨ a.match_eol.on = false)
    (h3 : ∀ ce, co = some ce → d.eol ≠ [] → d.eol = ce) :
    stageEol a co ls fe ii em d = d := by
  unfold stageEol
  split
  next he =>
    rw [if_neg]
    rw [h1 he]
    simp
  next he =>
    dsimp only
    rw [if_neg]
    · cases hco : co with
      | some ce =>
        dsimp only
        rw [if_neg]
        intro hx
        exact hx (h3 ce hco he)
      | none => rfl
    · intro hc
      rcases h2 he with h | h
      · exact hc.1 h
      · rw [h] at hc
        simp at hc

theorem pipeline_noop (a : Actions) (co : Option (List Char)) (ls : List Char)
    (fe : Option (List Char)) (ii : Nat) (em : Bool) (d : LineData)
    (hmix : a.tab_space_mix.on = true → mixedCond d.ispace = false)
    (hcs : a.change_spaces = none)
    (hct : ∀ n, a.change_tabs = some n → '\t' ∉ d.ispace)
    (hnlt : a.change_non_leading_tabs ≠ none → '\t' ∉ d.body)
    (htr : a.trail_space = Act.ignore ∨ d.trail = [])
    (he1 : d.eol = [] → a.eof_newl.on = false)
    (he2 : d.eol ≠ [] → some d.eol = fe ∨ a.match_eol.on = false)
    (he3 : ∀ ce, co = some ce → d.eol ≠ [] → d.eol = ce) :
    pipeline a co ls fe ii em d = d ∨
      pipeline a co ls fe ii em d = { d with mixed := some false } := by
  have hw : ∀ d2 : LineData, d2.ispace = d.ispace → stageWidth a d2 = d2 := by
    intro d2 hd2
    cases hc : a.change_tabs with
    | none => exact stageWidth_none a d2 hc hcs
    | some n =>
      exact stageWidth_ct_noTab a d2 n hc (fun hx => hct n hc (hd2 ▸ hx))
  have hn : ∀ d2 : LineData, d2.body = d.body → stageNonLead a d2 = d2 := by
    intro d2 hd2
    cases hc : a.change_non_leading_tabs with
    | none => exact stageNonLead_none a d2 hc
    | some m =>
      exact stageNonLead_noTab a d2 (fun hx => hnlt (by simp [hc]) (hd2 ▸ hx))
  have ht : ∀ d2 : LineData, d2.trail = d.trail → stageTrail a d2 = d2 := by
    intro d2 hd2
    rcases htr with h | h
    · exact stageTrail_off a d2 h
    · exact stageTrail_nil a d2 (hd2.trans h)
  have heq : ∀ d2 : LineData, d2.eol = d.eol →
      stageEol a co ls fe ii em d2 = d2 := by
    intro d2 hd2
    refine stageEol_noop a co ls fe ii em d2 ?_ ?_ ?_
    · intro hx
      exact he1 (hd2 ▸ hx)
    · intro hx
      rw [hd2]
      exact he2 (fun hy => hx (hd2.trans hy))
    · intro ce hce hx
      rw [hd2]
      exact he3 ce hce (fun hy => hx (hd2.trans hy))
  unfold pipeline
  rcases stageMix_noop a ii em d hmix with hm | hm <;> rw [hm]
  · rw [hw d rfl, hn d rfl, ht d rfl, heq d rfl]
    exact Or.inl rfl
  · rw [hw { d with mixed := some false } rfl,
      hn { d with mixed := some false } rfl,
      ht { d with mixed := some false } rfl,
      heq { d with mixed := some false } rfl]
    exact Or.inr rfl

theorem processLine_clean (a : Actions) (co : Option (List Char)) (ls : List Char)
    (ii : Nat) (st : St) (E c : List Char)
    (hcfg : GoodCfg a co ls) (hfe : nextFe st c = some E)
    (hcl : CleanLine a co E c) :
    (processLine a co ls ii st c).first_eol = some E ∧
    (processLine a co ls ii st c).seen = st.seen ∧
    (processLine a co ls ii st c).fixed = st.fixed ∧
    (processLine a co ls ii st c).events.filter (fun ev => ev.verbosity = 0) =
      st.events.filter (fun ev => ev.verbosity = 0) ∧
    ((decompose c).2.1.isEmpty = true →
      (processLine a co ls ii st c).buffer = st.buffer ++ [c] ∧
      (processLine a co ls ii st c).output = st.output) ∧
    ((decompose c).2.1.isEmpty = false →
      (processLine a co ls ii st c).buffer = [] ∧
      (processLine a co ls ii st c).output = st.output ++ st.buffer ++ [c]) := by
  have hmix : a.tab_space_mix.on = true →
      mixedCond (initLD ii st c).ispace = false := by
    intro hon
    have hfix : a.tab_space_mix = Act.fix := by
      rcases act_fix_or_ignore hcfg.tsm with h | h
      · exact h
      · rw [h] at hon
        simp [Act.on] at hon
    exact mixedCond_eq_false (hcl.ct (hcfg.tsmFix hfix))
  have hct : ∀ n, a.change_tabs = some n → '\t' ∉ (initLD ii st c).ispace := by
    intro n hn
    exact hcl.ct (by simp [hn])
  have hnlt : a.change_non_leading_tabs ≠ none →
      '\t' ∉ (initLD ii st c).body := fun h => hcl.nlt h
  have htr : a.trail_space = Act.ignore ∨ (initLD ii st c).trail = [] := by
    rcases act_fix_or_ignore hcfg.ts with h | h
    · exact Or.inr (hcl.tr h)
    · exact Or.inl h
  have he1 : (initLD ii st c).eol = [] → a.eof_newl.on = false := by
    intro h0
    have h2 := hcl.enl h0
    rcases act_fix_or_ignore hcfg.en with h3 | h3
    · exact absurd h3 h2
    · rw [h3]
      rfl
  have he2 : (initLD ii st c).eol ≠ [] →
      some (initLD ii st c).eol = some E ∨ a.match_eol.on = false := by
    intro h0
    rcases hcl.eo with h | h | h
    · left
      exact congrArg some h
    · exact absurd h h0
    · right
      rw [h.2.1]
      rfl
  have he3 : ∀ ce, co = some ce → (initLD ii st c).eol ≠ [] →
      (initLD ii st c).eol = ce := fun ce hce h0 => hcl.coe ce hce h0
  have hp := pipeline_noop a co ls (some E) ii ((decompose c).2.1.isEmpty)
    (initLD ii st c) hmix hcfg.hcs hct hnlt htr he1 he2 he3
  have hout : (initLD ii st c).ispace ++ (initLD ii st c).body ++
      (initLD ii st c).trail ++ (initLD ii st c).eol = c := decompose_concat c
  unfold processLine
  dsimp only
  rw [hfe]
  rcases hp with h | h <;> rw [h]
  · rw [hout, if_neg (show ¬(c ≠ c) from fun hx => hx rfl)]
    by_cases hem : (decompose c).2.1.isEmpty = true
    · rw [if_pos hem, hem]
      dsimp only [initLD]
      refine ⟨rfl, rfl, rfl, ?_, fun _ => ⟨rfl, rfl⟩, fun h2 => ?_⟩
      · simp
      · simp at h2
    · rw [if_neg hem]
      rw [Bool.not_eq_true] at hem
      rw [hem]
      dsimp only [initLD]
      refine ⟨rfl, rfl, rfl, ?_, fun h2 => ?_, fun _ => ⟨rfl, rfl⟩⟩
      · simp
      · simp at h2
  · rw [show ({ initLD ii st c with mixed := some false } : LineData).ispace ++
        ({ initLD ii st c with mixed := some false } : LineData).body ++
        ({ initLD ii st c with mixed := some false } : LineData).trail ++
        ({ initLD ii st c with mixed := some false } : LineData).eol = c from hout,
      if_neg (show ¬(c ≠ c) from fun hx => hx rfl)]
    by_cases hem : (decompose c).2.1.isEmpty = true
    · rw [if_pos hem, hem]
      dsimp only [initLD]
      refine ⟨rfl, rfl, rfl, ?_, fun _ => ⟨rfl, rfl⟩, fun h2 => ?_⟩
      · simp
      · simp at h2
    · rw [if_neg hem]
      rw [Bool.not_eq_true] at hem
      rw [hem]
      dsimp only [initLD]
      refine ⟨rfl, rfl, rfl, ?_, fun h2 => ?_, fun _ => ⟨rfl, rfl⟩⟩
      · simp
      · simp at h2

theorem runGo_clean (a : Actions) (co : Option (List Char)) (ls : List Char)
    (E : List Char) (hcfg : GoodCfg a co ls) :
    ∀ (cs : List (List Char)) (ii : Nat) (st : St),
      (st.first_eol = some E ∨
        (st.first_eol = none ∧ ∀ c0, cs.head? = some c0 → lineEol c0 = E)) →
      (∀ c ∈ cs, CleanLine a co E c) →
      (runGo a co ls ii st cs).seen = st.seen ∧
      (runGo a co ls ii st cs).fixed = st.fixed ∧
      (runGo a co ls ii st cs).output.flatten ++
          (runGo a co ls ii st cs).buffer.flatten =
        st.output.flatten ++ st.buffer.flatten ++ cs.flatten ∧
      (runGo a co ls ii st cs).events.filter (fun ev => ev.verbosity = 0) =
        st.events.filter (fun ev => ev.verbosity = 0) ∧
      (∀ c0, cs.getLast? = some c0 → (decompose c0).2.1 ≠ [] →
        (runGo a co ls ii st cs).buffer = []) := by
  intro cs
  induction cs with
  | nil =>
    intro ii st hst hcl
    exact ⟨rfl, rfl, by simp [runGo], rfl, fun c0 h0 => by simp at h0⟩
  | cons c rest ih =>
    intro ii st hst hcl
    have hfe : nextFe st c = some E := by
      unfold nextFe
      rcases hst with h | ⟨h1, h2⟩
      · rw [h]
        simp
      · rw [h1, if_pos rfl, decompose_eol, h2 c rfl]
    have hpc := processLine_clean a co ls ii st E c hcfg hfe
      (hcl c (List.mem_cons_self c rest))
    have hrw : runGo a co ls ii st (c :: rest) =
        runGo a co ls (ii + 1) (processLine a co ls ii st c) rest := rfl
    have hih := ih (ii + 1) (processLine a co ls ii st c)
      (Or.inl hpc.1) (fun x hx => hcl x (List.mem_cons_of_mem c hx))
    rw [hrw]
    obtain ⟨hs, hf, hob, hev, hlast⟩ := hih
    refine ⟨hs.trans hpc.2.1, hf.trans hpc.2.2.1, ?_,
      hev.trans hpc.2.2.2.1, ?_⟩
    · rw [hob]
      by_cases hem : (decompose c).2.1.isEmpty = true
      · obtain ⟨hb, ho⟩ := hpc.2.2.2.2.1 hem
        rw [hb, ho]
        simp
      · obtain ⟨hb, ho⟩ := hpc.2.2.2.2.2
          (by revert hem; cases (decompose c).2.1.isEmpty <;> simp)
        rw [hb, ho]
        simp
    · intro c0 h0 hnb
      cases rest with
      | nil =>
        have hc0 : c0 = c := by simpa using h0.symm
        subst hc0
        have hem : (decompose c0).2.1.isEmpty = false := by
          cases hq : (decompose c0).2.1 with
          | nil => exact absurd hq hnb
          | cons x xs => rfl
        exact (hpc.2.2.2.2.2 hem).1
      | cons d ds =>
        apply hlast c0 ?_ hnb
        rw [← h0, List.getLast?_cons_cons]

theorem finishEof_nil_buffer (a : Actions) (st : St) (h : st.buffer = []) :
    finishEof a st = st := by
  unfold finishEof
  rw [if_neg (show ¬(st.buffer ≠ []) from fun hx => hx h)]

theorem finishEof_ignore (a : Actions) (st : St)
    (h : a.eof_blanks = Act.ignore) :
    (finishEof a st).seen = st.seen ∧ (finishEof a st).fixed = st.fixed ∧
    (finishEof a st).output.flatten =
      st.output.flatten ++ st.buffer.flatten ∧
    (finishEof a st).events = st.events := by
  unfold finishEof
  by_cases hb : st.buffer ≠ []
  · rw [if_pos hb, if_neg (show ¬(a.eof_blanks.on = true) by rw [h]; simp [Act.on])]
    exact ⟨rfl, rfl, by simp, rfl⟩
  · rw [if_neg hb]
    refine ⟨rfl, rfl, ?_, rfl⟩
    rw [not_not.mp hb]
    simp

theorem finishEof_fix_output (a : Actions) (st : St)
    (h : a.eof_blanks = Act.fix) :
    (finishEof a st).output = st.output := by
  unfold finishEof
  by_cases hb : st.buffer ≠ []
  · rw [if_pos hb, if_pos (show a.eof_blanks.on = true by rw [h]; rfl),
      if_pos h]
  · rw [if_neg hb]

theorem finishEof_ignore_output (a : Actions) (st : St)
    (h : a.eof_blanks = Act.ignore) :
    (finishEof a st).output = st.output ++ st.buffer := by
  unfold finishEof
  by_cases hb : st.buffer ≠ []
  · rw [if_pos hb, if_neg (show ¬(a.eof_blanks.on = true) by rw [h]; simp [Act.on])]
  · rw [if_neg hb, not_not.mp hb]
    simp

theorem finishEof_clean (a : Actions) (st : St)
    (h : a.eof_blanks = Act.fix → st.buffer = [])
    (hnr : a.eof_blanks ≠ Act.report) :
    (finishEof a st).seen = st.seen ∧ (finishEof a st).fixed = st.fixed ∧
    (finishEof a st).output.flatten =
      st.output.flatten ++ st.buffer.flatten ∧
    (finishEof a st).events = st.events := by
  rcases act_fix_or_ignore hnr with hfix | hig
  · have hb := h hfix
    rw [finishEof_nil_buffer a st hb]
    refine ⟨rfl, rfl, ?_, rfl⟩
    rw [hb]
    simp
  · exact finishEof_ignore a st hig

theorem run_clean (a : Actions) (co : Option (List Char)) (ls : List Char)
    (E : List Char) (cs : List (List Char)) (hcfg : GoodCfg a co ls)
    (hcl : ∀ c ∈ cs, CleanLine a co E c)
    (hhead : ∀ c0, cs.head? = some c0 → lineEol c0 = E)
    (hlast : a.eof_blanks = Act.fix → ∀ c0, cs.getLast? = some c0 →
      (decompose c0).2.1 ≠ []) :
    (run a co ls cs).output.flatten = cs.flatten ∧
    (∀ k, (run a co ls cs).seen k = 0) ∧
    (∀ k, (run a co ls cs).fixed k = 0) ∧
    warnCount (run a co ls cs) = 0 := by
  obtain ⟨hs, hf, hob, hev, hbuf⟩ := runGo_clean a co ls E hcfg cs 1 initSt
    (Or.inr ⟨rfl, hhead⟩) hcl
  have hfin : a.eof_blanks = Act.fix →
      (runGo a co ls 1 initSt cs).buffer = [] := by
    intro hfix
    cases hq : cs.getLast? with
    | none =>
      have hnil : cs = [] := by
        cases cs with
        | nil => rfl
        | cons c rest =>
          rw [List.getLast?_eq_getLast _ (by simp)] at hq
          simp at hq
      subst hnil
      rfl
    | some c0 => exact hbuf c0 hq (hlast hfix c0 hq)
  obtain ⟨f1, f2, f3, f4⟩ := finishEof_clean a (runGo a co ls 1 initSt cs)
    hfin hcfg.eb
  unfold run
  refine ⟨?_, ?_, ?_, ?_⟩
  · rw [f3, hob]
    simp [initSt]
  · intro k
    rw [f1, hs]
    rfl
  · intro k
    rw [f2, hf]
    rfl
  · unfold warnCount
    rw [f4, hev]
    rfl

theorem genuine_tail {x : Char} {xs : List Char} (h : Genuine (x :: xs)) :
    Genuine xs := by
  intro hm
  cases xs with
  | nil => simp at hm
  | cons y ys => exact h (List.mem_cons_of_mem x hm)

theorem splitLines_cons (c : Char) (cs : List Char) :
    splitLines (c :: cs) =
      if c = '\n' then ['\n'] :: splitLines cs
      else
        match splitLines cs with
        | [] => [[c]]
        | l :: ls => (c :: l) :: ls := rfl

theorem splitLines_single {c : List Char} (hg : Genuine c) (hne : c ≠ []) :
    splitLines c = [c] := by
  induction c with
  | nil => exact absurd rfl hne
  | cons x xs ih =>
    rw [splitLines_cons]
    by_cases hx : x = '\n'
    · rw [if_pos hx]
      cases xs with
      | nil =>
        rw [hx]
        rfl
      | cons y ys =>
        exfalso
        apply hg
        show '\n' ∈ x :: (y :: ys).dropLast
        rw [hx]
        exact List.mem_cons_self _ _
    · rw [if_neg hx]
      cases xs with
      | nil => rfl
      | cons y ys =>
        rw [ih (genuine_tail hg) (by simp)]

theorem splitLines_append_nl {c : List Char} (hg : Genuine c) (hne : c ≠ [])
    (hnl : c.getLast? = some '\n') :
    ∀ s, splitLines (c ++ s) = c :: splitLines s := by
  induction c with
  | nil => exact absurd rfl hne
  | cons x xs ih =>
    intro s
    cases xs with
    | nil =>
      have hx : x = '\n' := by simpa using hnl
      subst hx
      show splitLines ('\n' :: ([] ++ s)) = ['\n'] :: splitLines s
      rw [List.nil_append, splitLines_cons, if_pos rfl]
    | cons y ys =>
      have hx : x ≠ '\n' := by
        intro hx
        apply hg
        show '\n' ∈ x :: (y :: ys).dropLast
        rw [hx]
        exact List.mem_cons_self _ _
      have ihs := ih (genuine_tail hg) (by simp) (by simpa using hnl) s
      rw [List.cons_append, splitLines_cons, if_neg hx, ihs]

theorem splitLines_flatten (cs : List (List Char))
    (hg : ∀ c ∈ cs, Genuine c)
    (hnl : ∀ c ∈ cs.dropLast, c.getLast? = some '\n')
    (hlast : ∀ c, cs.getLast? = some c → c ≠ []) :
    splitLines cs.flatten = cs := by
  induction cs with
  | nil => rfl
  | cons c rest ih =>
    cases rest with
    | nil =>
      have hne : c ≠ [] := hlast c (by simp)
      rw [List.flatten_cons, List.flatten_nil, List.append_nil]
      exact splitLines_single (hg c (by simp)) hne
    | cons d ds =>
      have hcnl : c.getLast? = some '\n' := by
        apply hnl c
        exact List.mem_cons_self _ _
      have hcne : c ≠ [] := by
        intro h0
        rw [h0] at hcnl
        simp at hcnl
      rw [List.flatten_cons, splitLines_append_nl (hg c (by simp)) hcne hcnl]
      congr 1
      apply ih
      · exact fun x hx => hg x (List.mem_cons_of_mem c hx)
      · intro x hx
        exact hnl x (List.mem_cons_of_mem c hx)
      · intro x hx
        apply hlast x
        rw [List.getLast?_cons_cons]
        exact hx

theorem outLine_chunkC (a : Actions) (co : Option (List Char)) (ls : List Char)
    (ii : Nat) (st : St) (l : List Char) (E : List Char)
    (hcfg : GoodCfg a co ls) (hgen : Genuine l)
    (hfe : nextFe st l = some E)
    (hE2 : E = ['\n'] ∨ E = ['\r', '\n']) :
    ChunkC a co E (outLine a co ls ii st l) ∧
    ((decompose (outLine a co ls ii st l)).2.1 = [] ↔ (decompose l).2.1 = []) ∧
    Genuine (outLine a co ls ii st l) ∧
    (lineEol l = ['\n'] ∨ lineEol l = ['\r', '\n'] →
      (outLine a co ls ii st l).getLast? = some '\n') ∧
    (decompose (outLine a co ls ii st l)).2.2.2 =
      expectedEol a co ls (some E) (lineEol l) := by
  have hEne : E ≠ [] := by rcases hE2 with h | h <;> rw [h] <;> simp
  have hfe4 : (nextFe st l).getD [] = [] ∨ (nextFe st l).getD [] = ['\n'] ∨
      (nextFe st l).getD [] = ['\r'] ∨ (nextFe st l).getD [] = ['\r', '\n'] := by
    rw [hfe]
    simp only [Option.getD_some]
    rcases hE2 with h | h
    · exact Or.inr (Or.inl h)
    · exact Or.inr (Or.inr (Or.inr h))
  obtain ⟨hbase, htf, hct, hnlt, hbiff, heol⟩ :=
    lineOut_chunkOK a co ls ii st l hcfg hgen hfe4
  have hd : decompose (outLine a co ls ii st l) =
      ((lineOut a co ls ii st l).ispace, (lineOut a co ls ii st l).body,
       (lineOut a co ls ii st l).trail, (lineOut a co ls ii st l).eol) :=
    decompose_recombine hbase
  have heol2 : (decompose (outLine a co ls ii st l)).2.2.2 =
      expectedEol a co ls (some E) (lineEol l) := by
    rw [hd]
    rw [← hfe]
    exact heol
  refine ⟨⟨?_, ?_, ?_, ?_, ?_, ?_, ?_⟩, ?_, ?_, ?_, heol2⟩
  · rw [hd]
    exact hbase
  · intro h
    rw [hd]
    exact hct h
  · intro h
    rw [hd]
    exact hnlt h
  · intro h
    rw [hd]
    exact htf h
  · intro h0 hfix
    rw [heol2] at h0
    exact expectedEol_ne_nil a co ls E (lineEol l) hcfg.co hcfg.lsep
      (fun hE0 => absurd hE0 hEne) hfix h0
  · intro ce hce h0
    rw [heol2] at h0 ⊢
    rw [hce] at h0 ⊢
    rcases expectedEol_coerce_eq a ls ce (some E) (lineEol l) with h | h
    · exact h
    · exact absurd h h0
  · intro hcon hm h0
    rw [heol2] at h0 ⊢
    rw [hcon] at h0 ⊢
    rcases expectedEol_none_matchfix a ls E (lineEol l) hEne hm with h | h
    · exact h
    · exact absurd h h0
  · rw [hd]
    exact hbiff
  · exact baseOK_genuine hbase
  · intro he2
    have h3 : (lineOut a co ls ii st l).eol = ['\n'] ∨
        (lineOut a co ls ii st l).eol = ['\r', '\n'] := by
      rw [heol]
      rw [hfe]
      exact expectedEol_last_nl a co ls E (lineEol l) hcfg.co hE2 he2
    have hne2 : (lineOut a co ls ii st l).eol ≠ [] := by
      rcases h3 with h | h <;> rw [h] <;> simp
    show ((lineOut a co ls ii st l).ispace ++ (lineOut a co ls ii st l).body ++
        (lineOut a co ls ii st l).trail ++
        (lineOut a co ls ii st l).eol).getLast? = some '\n'
    rw [List.getLast?_append_of_ne_nil _ hne2]
    rcases h3 with h | h <;> rw [h] <;> rfl

theorem chunkC_cleanLine (a : Actions) (co : Option (List Char))
    (ls : List Char) (E : List Char) (c : List Char) (h : ChunkC a co E c)
    (hEne : E ≠ []) (hmr : a.match_eol ≠ Act.report) :
    CleanLine a co (mainEol co ls E) c := by
  refine ⟨h.ct, h.nlt, h.tr, h.enl, h.coe, ?_⟩
  by_cases h0 : (decompose c).2.2.2 = []
  · exact Or.inr (Or.inl h0)
  · cases hco : co with
    | some ce => exact Or.inl (h.coe ce hco h0)
    | none =>
      rcases act_fix_or_ignore hmr with hm | hm
      · left
        rw [h.mfx hco hm h0]
        unfold mainEol
        dsimp only
        rw [if_neg hEne]
      · exact Or.inr (Or.inr ⟨h0, hm, rfl⟩)

theorem processLine_parts (a : Actions) (co : Option (List Char)) (ls : List Char)
    (ii : Nat) (st : St) (l : List Char) :
    (processLine a co ls ii st l).first_eol = nextFe st l ∧
    ((decompose l).2.1.isEmpty = true →
      (processLine a co ls ii st l).buffer =
        st.buffer ++ [outLine a co ls ii st l] ∧
      (processLine a co ls ii st l).output = st.output) ∧
    ((decompose l).2.1.isEmpty = false →
      (processLine a co ls ii st l).buffer = [] ∧
      (processLine a co ls ii st l).output =
        st.output ++ st.buffer ++ [outLine a co ls ii st l]) := by
  unfold processLine
  dsimp only
  by_cases hem : (decompose l).2.1.isEmpty = true
  · rw [if_pos hem]
    refine ⟨rfl, fun _ => ⟨rfl, rfl⟩, fun h2 => ?_⟩
    rw [hem] at h2
    simp at h2
  · rw [if_neg hem]
    refine ⟨rfl, fun h2 => absurd h2 hem, fun _ => ⟨rfl, rfl⟩⟩

theorem isEmpty_false_ne_nil {l : List Char} (h : l.isEmpty = false) :
    l ≠ [] := by
  intro h0
  rw [h0] at h
  simp at h

theorem runGo_chunks (a : Actions) (co : Option (List Char)) (ls : List Char)
    (E : List Char) (hcfg : GoodCfg a co ls)
    (hE2 : E = ['\n'] ∨ E = ['\r', '\n']) :
    ∀ (lines : List (List Char)) (ii : Nat) (st : St),
      st.first_eol = some E →
      (∀ l ∈ lines, Genuine l) →
      (∀ l ∈ lines.dropLast, l.getLast? = some '\n') →
      (∀ c ∈ st.output ++ st.buffer, ChunkC a co E c) →
      (∀ c ∈ (st.output ++ st.buffer).dropLast, c.getLast? = some '\n') →
      (lines ≠ [] → ∀ c ∈ st.output ++ st.buffer, c.getLast? = some '\n') →
      (∀ c, st.output.getLast? = some c → (decompose c).2.1 ≠ []) →
      (∀ c ∈ st.output ++ st.buffer, Genuine c) →
      (∀ c ∈ (runGo a co ls ii st lines).output ++
          (runGo a co ls ii st lines).buffer, ChunkC a co E c) ∧
      (∀ c ∈ ((runGo a co ls ii st lines).output ++
          (runGo a co ls ii st lines).buffer).dropLast,
        c.getLast? = some '\n') ∧
      (∀ c, (runGo a co ls ii st lines).output.getLast? = some c →
        (decompose c).2.1 ≠ []) ∧
      (∀ c ∈ (runGo a co ls ii st lines).output ++
          (runGo a co ls ii st lines).buffer, Genuine c) ∧
      (∃ new, (runGo a co ls ii st lines).output ++
          (runGo a co ls ii st lines).buffer =
        (st.output ++ st.buffer) ++ new) := by
  intro lines
  induction lines with
  | nil =>
    intro ii st hst hgenL hnlL hC hD hAll hOL hG
    exact ⟨hC, hD, hOL, hG, [], by simp [runGo]⟩
  | cons l rest ih =>
    intro ii st hst hgenL hnlL hC hD hAll hOL hG
    have hfe : nextFe st l = some E := by
      unfold nextFe
      rw [hst]
      simp
    obtain ⟨hckC, hckIff, hckG, hckNl, hckEol⟩ :=
      outLine_chunkC a co ls ii st l E hcfg
        (hgenL l (List.mem_cons_self _ _)) hfe hE2
    obtain ⟨hp1, hpB, hpO⟩ := processLine_parts a co ls ii st l
    have hchunks : (processLine a co ls ii st l).output ++
        (processLine a co ls ii st l).buffer =
        (st.output ++ st.buffer) ++ [outLine a co ls ii st l] := by
      by_cases hem : (decompose l).2.1.isEmpty = true
      · obtain ⟨hb, ho⟩ := hpB hem
        rw [hb, ho]
        simp
      · obtain ⟨hb, ho⟩ :=
          hpO (by revert hem; cases (decompose l).2.1.isEmpty <;> simp)
        rw [hb, ho]
        simp
    have hchNl : rest ≠ [] → ∀ c ∈ (processLine a co ls ii st l).output ++
        (processLine a co ls ii st l).buffer, c.getLast? = some '\n' := by
      intro hrest c hc
      rw [hchunks] at hc
      rcases List.mem_append.1 hc with h | h
      · exact hAll (by simp) c h
      · rw [List.mem_singleton] at h
        subst h
        apply hckNl
        apply lineEol_of_last_nl
        apply hnlL l
        cases rest with
        | nil => exact absurd rfl hrest
        | cons d ds => exact List.mem_cons_self _ _
    have hrw : runGo a co ls ii st (l :: rest) =
        runGo a co ls (ii + 1) (processLine a co ls ii st l) rest := rfl
    rw [hrw]
    obtain ⟨ihC, ihD, ihOL, ihG, ihnew, ihEx⟩ :=
      ih (ii + 1) (processLine a co ls ii st l)
        (hp1.trans hfe)
        (fun x hx => hgenL x (List.mem_cons_of_mem l hx))
        (by
          intro x hx
          apply hnlL x
          cases rest with
          | nil => simp at hx
          | cons d ds => exact List.mem_cons_of_mem l hx)
        (by
          intro c hc
          rw [hchunks] at hc
          rcases List.mem_append.1 hc with h | h
          · exact hC c h
          · rw [List.mem_singleton] at h
            subst h
            exact hckC)
        (by
          intro c hc
          rw [hchunks, List.dropLast_concat] at hc
          exact hAll (by simp) c hc)
        hchNl
        (by
          intro c hc
          by_cases hem : (decompose l).2.1.isEmpty = true
          · obtain ⟨hb, ho⟩ := hpB hem
            rw [ho] at hc
            exact hOL c hc
          · obtain ⟨hb, ho⟩ :=
              hpO (by revert hem; cases (decompose l).2.1.isEmpty <;> simp)
            rw [ho] at hc
            rw [show st.output ++ st.buffer ++ [outLine a co ls ii st l] =
              (st.output ++ st.buffer) ++ [outLine a co ls ii st l] by simp,
              List.getLast?_concat] at hc
            have hc2 : c = outLine a co ls ii st l := by
              simpa using hc.symm
            subst hc2
            intro hbody
            have hlb : (decompose l).2.1 = [] := hckIff.mp hbody
            revert hem
            rw [hlb]
            simp)
        (by
          intro c hc
          rw [hchunks] at hc
          rcases List.mem_append.1 hc with h | h
          · exact hG c h
          · rw [List.mem_singleton] at h
            subst h
            exact hckG)
    refine ⟨ihC, ihD, ihOL, ihG, [outLine a co ls ii st l] ++ ihnew, ?_⟩
    rw [ihEx, hchunks]
    simp

theorem head?_dropLast {l : List (List Char)} {x : List Char}
    (h : l.dropLast.head? = some x) : l.head? = some x := by
  cases l with
  | nil => simp at h
  | cons a rest =>
    cases rest with
    | nil => simp at h
    | cons b t =>
      rw [show ((a :: b :: t).dropLast) = a :: (b :: t).dropLast from rfl] at h
      simp only [List.head?_cons, Option.some_inj] at h ⊢
      exact h

theorem chunks_silent (a : Actions) (co : Option (List Char)) (ls : List Char)
    (E2 : List Char) (cs : List (List Char)) (hcfg : GoodCfg a co ls)
    (hcl : ∀ c ∈ cs, CleanLine a co E2 c)
    (hgen : ∀ c ∈ cs, Genuine c)
    (hnl : ∀ c ∈ cs.dropLast, c.getLast? = some '\n')
    (hhead : ∀ c0, cs.head? = some c0 → lineEol c0 = E2)
    (hlast : a.eof_blanks = Act.fix → ∀ c0, cs.getLast? = some c0 →
      (decompose c0).2.1 ≠ []) :
    runOut a co ls (splitLines cs.flatten) = cs.flatten ∧
    (∀ k, (run a co ls (splitLines cs.flatten)).seen k = 0) ∧
    (∀ k, (run a co ls (splitLines cs.flatten)).fixed k = 0) ∧
    warnCount (run a co ls (splitLines cs.flatten)) = 0 := by
  by_cases hq : cs.getLast? = some []
  · have hne : cs ≠ [] := by
      intro h0
      rw [h0] at hq
      simp at hq
    have hgl : cs.getLast hne = [] := by
      rw [List.getLast?_eq_getLast _ hne] at hq
      simpa using hq
    have hsplit : cs.dropLast ++ [[]] = cs := by
      conv_rhs => rw [← List.dropLast_append_getLast hne, hgl]
    have hflat : cs.flatten = cs.dropLast.flatten := by
      conv_lhs => rw [← hsplit]
      rw [List.flatten_append]
      simp
    have hlast2 : ∀ c0, cs.dropLast.getLast? = some c0 → c0 ≠ [] := by
      intro c0 h0
      have hm : c0 ∈ cs.dropLast := List.mem_of_mem_getLast? h0
      have h2 := hnl c0 hm
      intro h1
      rw [h1] at h2
      simp at h2
    have hresp : splitLines cs.dropLast.flatten = cs.dropLast :=
      splitLines_flatten cs.dropLast
        (fun c hc => hgen c (List.dropLast_subset cs hc))
        (fun c hc => hnl c (List.dropLast_subset cs.dropLast hc))
        hlast2
    obtain ⟨r1, r2, r3, r4⟩ := run_clean a co ls E2 cs.dropLast hcfg
      (fun c hc => hcl c (List.dropLast_subset cs hc))
      (fun c0 h0 => hhead c0 (head?_dropLast h0))
      (fun hfix => absurd (by decide : (decompose ([] : List Char)).2.1 = [])
        (hlast hfix [] hq))
    rw [hflat, hresp]
    exact ⟨r1, r2, r3, r4⟩
  · have hlast2 : ∀ c0, cs.getLast? = some c0 → c0 ≠ [] := by
      intro c0 h0 h1
      rw [h1] at h0
      exact hq h0
    rw [splitLines_flatten cs hgen hnl hlast2]
    obtain ⟨r1, r2, r3, r4⟩ := run_clean a co ls E2 cs hcfg hcl hhead hlast
    exact ⟨r1, r2, r3, r4⟩

theorem splitLines_props (s : List Char) :
    (∀ l ∈ splitLines s, Genuine l ∧ l ≠ []) ∧
    (∀ l ∈ (splitLines s).dropLast, l.getLast? = some '\n') := by
  induction s with
  | nil =>
    constructor
    · intro l hl
      rw [show splitLines [] = [] from rfl] at hl
      simp at hl
    · intro l hl
      rw [show splitLines [] = [] from rfl] at hl
      simp at hl
  | cons c cs ih =>
    rw [splitLines_cons]
    by_cases hc : c = '\n'
    · rw [if_pos hc]
      constructor
      · intro l hl
        rcases List.mem_cons.1 hl with h | h
        · subst h
          exact ⟨by intro hm; simp at hm, by simp⟩
        · exact ih.1 l h
      · intro l hl
        cases hrest : splitLines cs with
        | nil =>
          rw [hrest] at hl
          simp at hl
        | cons x xs =>
          rw [hrest] at hl
          rw [show ((['\n'] :: x :: xs).dropLast) =
            ['\n'] :: (x :: xs).dropLast from rfl] at hl
          rcases List.mem_cons.1 hl with h | h
          · subst h
            rfl
          · apply ih.2
            rw [hrest]
            exact h
    · rw [if_neg hc]
      cases hrest : splitLines cs with
      | nil =>
        dsimp only
        constructor
        · intro l hl
          rw [List.mem_singleton] at hl
          subst hl
          exact ⟨by intro hm; simp at hm, by simp⟩
        · intro l hl
          simp at hl
      | cons x xs =>
        dsimp only
        have hx := ih.1 x (by rw [hrest]; exact List.mem_cons_self _ _)
        constructor
        · intro l hl
          rcases List.mem_cons.1 hl with h | h
          · subst h
            refine ⟨?_, by simp⟩
            intro hm
            cases hxn : x with
            | nil =>
              rw [hxn] at hm
              simp at hm
            | cons y ys =>
              rw [hxn] at hm
              rw [show ((c :: y :: ys).dropLast) =
                c :: (y :: ys).dropLast from rfl] at hm
              rcases List.mem_cons.1 hm with h2 | h2
              · exact hc h2.symm
              · rw [hxn] at hx
                exact hx.1 h2
          · exact ih.1 l (by rw [hrest]; exact List.mem_cons_of_mem x h)
        · intro l hl
          cases hxs : xs with
          | nil =>
            rw [hxs] at hl
            simp at hl
          | cons z zs =>
            rw [hxs] at hl
            rw [show (((c :: x) :: z :: zs).dropLast) =
              (c :: x) :: (z :: zs).dropLast from rfl] at hl
            rcases List.mem_cons.1 hl with h | h
            · subst h
              have hxnl : x.getLast? = some '\n' := by
                apply ih.2
                rw [hrest, hxs]
                exact List.mem_cons_self _ _
              rw [getLast_cons_of_ne_nil _ hx.2]
              exact hxnl
            · apply ih.2
              rw [hrest, hxs]
              exact List.mem_cons_of_mem x h

theorem head?_append_left {A B : List (List Char)} {x : List Char}
    (h : A.head? = some x) : (A ++ B).head? = some x := by
  cases A with
  | nil => simp at h
  | cons a t => simpa using h

theorem dropLast_append_left {A B : List (List Char)} :
    A.dropLast ⊆ (A ++ B).dropLast := by
  cases B with
  | nil => simp
  | cons b t =>
    rw [List.dropLast_append_of_ne_nil _ (by simp)]
    intro x hx
    exact List.mem_append_left _ (List.dropLast_subset A hx)

theorem run_single_silent (a : Actions) (co : Option (List Char))
    (ls : List Char) (hcfg : GoodCfg a co ls) (l : List Char)
    (hgen : Genuine l) :
    runOut a co ls (splitLines (runOut a co ls [l])) = runOut a co ls [l] ∧
    (∀ k, (run a co ls (splitLines (runOut a co ls [l]))).seen k = 0) ∧
    (∀ k, (run a co ls (splitLines (runOut a co ls [l]))).fixed k = 0) ∧
    warnCount (run a co ls (splitLines (runOut a co ls [l]))) = 0 := by
  have hfe : nextFe initSt l = some (lineEol l) := by
    unfold nextFe
    rw [show initSt.first_eol = none from rfl, if_pos rfl, decompose_eol]
  have hfe4 : (nextFe initSt l).getD [] = [] ∨
      (nextFe initSt l).getD [] = ['\n'] ∨
      (nextFe initSt l).getD [] = ['\r'] ∨
      (nextFe initSt l).getD [] = ['\r', '\n'] := by
    rw [hfe]
    simpa using lineEol_cases l
  obtain ⟨hbase, htf, hct, hnlt, hbiff, heol⟩ :=
    lineOut_chunkOK a co ls 1 initSt l hcfg hgen hfe4
  have hd : decompose (outLine a co ls 1 initSt l) =
      ((lineOut a co ls 1 initSt l).ispace, (lineOut a co ls 1 initSt l).body,
       (lineOut a co ls 1 initSt l).trail, (lineOut a co ls 1 initSt l).eol) :=
    decompose_recombine hbase
  have hckgen : Genuine (outLine a co ls 1 initSt l) := baseOK_genuine hbase
  have heol2 : (decompose (outLine a co ls 1 initSt l)).2.2.2 =
      expectedEol a co ls (some (lineEol l)) (lineEol l) := by
    rw [hd]
    rw [← hfe]
    exact heol
  have hclean : CleanLine a co
      ((decompose (outLine a co ls 1 initSt l)).2.2.2)
      (outLine a co ls 1 initSt l) := by
    refine ⟨?_, ?_, ?_, ?_, ?_, Or.inl rfl⟩
    · intro h
      rw [hd]
      exact hct h
    · intro h
      rw [hd]
      exact hnlt h
    · intro h
      rw [hd]
      exact htf h
    · intro h0 hfix
      rw [heol2] at h0
      exact expectedEol_ne_nil a co ls (lineEol l) (lineEol l) hcfg.co
        hcfg.lsep (fun h => h) hfix h0
    · intro ce hce h0
      rw [heol2] at h0 ⊢
      rw [hce] at h0 ⊢
      rcases expectedEol_coerce_eq a ls ce (some (lineEol l)) (lineEol l)
        with h | h
      · exact h
      · exact absurd h h0
  have hrun : run a co ls [l] = finishEof a (processLine a co ls 1 initSt l) :=
    rfl
  obtain ⟨hp1, hpB, hpO⟩ := processLine_parts a co ls 1 initSt l
  have hone : ∀ hcs : (run a co ls [l]).output = [outLine a co ls 1 initSt l],
      (a.eof_blanks = Act.fix → (decompose (outLine a co ls 1 initSt l)).2.1 ≠ []) →
      runOut a co ls (splitLines (runOut a co ls [l])) = runOut a co ls [l] ∧
      (∀ k, (run a co ls (splitLines (runOut a co ls [l]))).seen k = 0) ∧
      (∀ k, (run a co ls (splitLines (runOut a co ls [l]))).fixed k = 0) ∧
      warnCount (run a co ls (splitLines (runOut a co ls [l]))) = 0 := by
    intro hcs hnb
    by_cases hcknil : outLine a co ls 1 initSt l = []
    · have hout : runOut a co ls [l] = [] := by
        unfold runOut
        rw [hcs, hcknil]
        rfl
      rw [hout]
      exact ⟨rfl, fun k => rfl, fun k => rfl, rfl⟩
    · have hres := chunks_silent a co ls
        ((decompose (outLine a co ls 1 initSt l)).2.2.2)
        [outLine a co ls 1 initSt l] hcfg
        (by
          intro c hc
          rw [List.mem_singleton] at hc
          subst hc
          exact hclean)
        (by
          intro c hc
          rw [List.mem_singleton] at hc
          subst hc
          exact hckgen)
        (by intro c hc; simp at hc)
        (by
          intro c0 h0
          have hc0 : c0 = outLine a co ls 1 initSt l := by
            simpa using h0.symm
          subst hc0
          exact (decompose_eol _).symm)
        (by
          intro hfix c0 h0
          have hc0 : c0 = outLine a co ls 1 initSt l := by
            simpa using h0.symm
          subst hc0
          exact hnb hfix)
      have hout : runOut a co ls [l] = [outLine a co ls 1 initSt l].flatten := by
        unfold runOut
        rw [hcs]
      rw [hout]
      exact hres
  by_cases hem : (decompose l).2.1.isEmpty = true
  · obtain ⟨hb, ho⟩ := hpB hem
    rcases act_fix_or_ignore hcfg.eb with hfix | hig
    · have hcs : (run a co ls [l]).output = [] := by
        rw [hrun, finishEof_fix_output a _ hfix, ho]
        rfl
      have hout : runOut a co ls [l] = [] := by
        unfold runOut
        rw [hcs]
        rfl
      rw [hout]
      exact ⟨rfl, fun k => rfl, fun k => rfl, rfl⟩
    · have hcs : (run a co ls [l]).output = [outLine a co ls 1 initSt l] := by
        rw [hrun, finishEof_ignore_output a _ hig, ho, hb]
        rfl
      exact hone hcs (fun hfix => absurd (hig.symm.trans hfix) (by simp))
  · obtain ⟨hb, ho⟩ :=
      hpO (by revert hem; cases (decompose l).2.1.isEmpty <;> simp)
    have hcs : (run a co ls [l]).output = [outLine a co ls 1 initSt l] := by
      rw [hrun, finishEof_nil_buffer a _ hb, ho]
      rfl
    refine hone hcs (fun _ => ?_)
    intro h1
    rw [hd] at h1
    have h2 := hbiff.mp h1
    apply hem
    rw [h2]
    rfl

theorem run_multi_silent (a : Actions) (co : Option (List Char)) (ls : List Char)
    (hcfg : GoodCfg a co ls) (l1 l2 : List Char) (rest : List (List Char))
    (hgenL : ∀ l ∈ l1 :: l2 :: rest, Genuine l)
    (hnlL : ∀ l ∈ (l1 :: l2 :: rest).dropLast, l.getLast? = some '\n') :
    runOut a co ls (splitLines (runOut a co ls (l1 :: l2 :: rest))) =
      runOut a co ls (l1 :: l2 :: rest) ∧
    (∀ k, (run a co ls
      (splitLines (runOut a co ls (l1 :: l2 :: rest)))).seen k = 0) ∧
    (∀ k, (run a co ls
      (splitLines (runOut a co ls (l1 :: l2 :: rest)))).fixed k = 0) ∧
    warnCount (run a co ls
      (splitLines (runOut a co ls (l1 :: l2 :: rest)))) = 0 := by
  have hl1 : l1.getLast? = some '\n' := by
    apply hnlL l1
    exact List.mem_cons_self _ _
  have hE0 : lineEol l1 = ['\n'] ∨ lineEol l1 = ['\r', '\n'] :=
    lineEol_of_last_nl hl1
  have hE0ne : lineEol l1 ≠ [] := by rcases hE0 with h | h <;> rw [h] <;> simp
  have hfe : nextFe initSt l1 = some (lineEol l1) := by
    unfold nextFe
    rw [show initSt.first_eol = none from rfl, if_pos rfl, decompose_eol]
  obtain ⟨hckC, hckIff, hckG, hckNl, hckEol⟩ :=
    outLine_chunkC a co ls 1 initSt l1 (lineEol l1) hcfg
      (hgenL l1 (List.mem_cons_self _ _)) hfe hE0
  obtain ⟨hp1, hpB, hpO⟩ := processLine_parts a co ls 1 initSt l1
  have hch1 : (processLine a co ls 1 initSt l1).output ++
      (processLine a co ls 1 initSt l1).buffer =
      [outLine a co ls 1 initSt l1] := by
    by_cases hem : (decompose l1).2.1.isEmpty = true
    · obtain ⟨hb, ho⟩ := hpB hem
      rw [hb, ho]
      rfl
    · obtain ⟨hb, ho⟩ :=
        hpO (by revert hem; cases (decompose l1).2.1.isEmpty <;> simp)
      rw [hb, ho]
      rfl
  obtain ⟨ihC, ihD, ihOL, ihG, new, ihEx⟩ :=
    runGo_chunks a co ls (lineEol l1) hcfg hE0 (l2 :: rest) 2
      (processLine a co ls 1 initSt l1)
      (hp1.trans hfe)
      (fun x hx => hgenL x (List.mem_cons_of_mem l1 hx))
      (fun x hx => hnlL x (List.mem_cons_of_mem l1 hx))
      (by
        intro c hc
        rw [hch1] at hc
        rw [List.mem_singleton] at hc
        subst hc
        exact hckC)
      (by
        intro c hc
        rw [hch1] at hc
        simp at hc)
      (by
        intro _ c hc
        rw [hch1] at hc
        rw [List.mem_singleton] at hc
        subst hc
        exact hckNl hE0)
      (by
        intro c hc
        by_cases hem : (decompose l1).2.1.isEmpty = true
        · obtain ⟨hb, ho⟩ := hpB hem
          rw [ho] at hc
          simp [initSt] at hc
        · obtain ⟨hb, ho⟩ :=
            hpO (by revert hem; cases (decompose l1).2.1.isEmpty <;> simp)
          rw [ho] at hc
          have hc2 : c = outLine a co ls 1 initSt l1 := by
            rw [show initSt.output ++ initSt.buffer ++
              [outLine a co ls 1 initSt l1] =
              [outLine a co ls 1 initSt l1] from rfl] at hc
            simpa using hc.symm
          subst hc2
          intro hbody
          have hlb := hckIff.mp hbody
          revert hem
          rw [hlb]
          simp)
      (by
        intro c hc
        rw [hch1] at hc
        rw [List.mem_singleton] at hc
        subst hc
        exact hckG)
  have hrun : run a co ls (l1 :: l2 :: rest) =
      finishEof a (runGo a co ls 2 (processLine a co ls 1 initSt l1)
        (l2 :: rest)) := rfl
  have hE2 : (decompose (outLine a co ls 1 initSt l1)).2.2.2 =
      mainEol co ls (lineEol l1) := by
    rw [hckEol]
    exact expectedEol_self a co ls (lineEol l1) hE0ne
  have hheadAll : ((runGo a co ls 2 (processLine a co ls 1 initSt l1)
      (l2 :: rest)).output ++ (runGo a co ls 2
      (processLine a co ls 1 initSt l1) (l2 :: rest)).buffer).head? =
      some (outLine a co ls 1 initSt l1) := by
    rw [ihEx, hch1]
    rfl
  have hclAll : ∀ c ∈ (runGo a co ls 2 (processLine a co ls 1 initSt l1)
      (l2 :: rest)).output ++ (runGo a co ls 2
      (processLine a co ls 1 initSt l1) (l2 :: rest)).buffer,
      CleanLine a co (mainEol co ls (lineEol l1)) c :=
    fun c hc => chunkC_cleanLine a co ls (lineEol l1) c (ihC c hc)
      hE0ne hcfg.me
  rcases act_fix_or_ignore hcfg.eb with hfix | hig
  · have hcs : (run a co ls (l1 :: l2 :: rest)).output =
        (runGo a co ls 2 (processLine a co ls 1 initSt l1)
          (l2 :: rest)).output := by
      rw [hrun]
      exact finishEof_fix_output a _ hfix
    have hres := chunks_silent a co ls (mainEol co ls (lineEol l1))
      ((runGo a co ls 2 (processLine a co ls 1 initSt l1)
        (l2 :: rest)).output) hcfg
      (fun c hc => hclAll c (List.mem_append_left _ hc))
      (fun c hc => ihG c (List.mem_append_left _ hc))
      (fun c hc => ihD c (dropLast_append_left hc))
      (by
        intro c0 h0
        have h1 : ((runGo a co ls 2 (processLine a co ls 1 initSt l1)
            (l2 :: rest)).output ++ (runGo a co ls 2
            (processLine a co ls 1 initSt l1) (l2 :: rest)).buffer).head? =
            some c0 := head?_append_left h0
        rw [hheadAll] at h1
        have hc0 : c0 = outLine a co ls 1 initSt l1 := by
          simpa using h1.symm
        subst hc0
        rw [← hE2]
        exact (decompose_eol _).symm)
      (fun _ c0 h0 => ihOL c0 h0)
    have hout : runOut a co ls (l1 :: l2 :: rest) =
        ((runGo a co ls 2 (processLine a co ls 1 initSt l1)
          (l2 :: rest)).output).flatten := by
      unfold runOut
      rw [hcs]
    rw [hout]
    exact hres
  · have hcs : (run a co ls (l1 :: l2 :: rest)).output =
        (runGo a co ls 2 (processLine a co ls 1 initSt l1)
          (l2 :: rest)).output ++ (runGo a co ls 2
          (processLine a co ls 1 initSt l1) (l2 :: rest)).buffer := by
      rw [hrun]
      exact finishEof_ignore_output a _ hig
    have hres := chunks_silent a co ls (mainEol co ls (lineEol l1))
      ((runGo a co ls 2 (processLine a co ls 1 initSt l1)
        (l2 :: rest)).output ++ (runGo a co ls 2
        (processLine a co ls 1 initSt l1) (l2 :: rest)).buffer) hcfg
      hclAll ihG ihD
      (by
        intro c0 h0
        rw [hheadAll] at h0
        have hc0 : c0 = outLine a co ls 1 initSt l1 := by
          simpa using h0.symm
        subst hc0
        rw [← hE2]
        exact (decompose_eol _).symm)
      (fun hfix => absurd (hig.symm.trans hfix) (by simp))
    have hout : runOut a co ls (l1 :: l2 :: rest) =
        ((runGo a co ls 2 (processLine a co ls 1 initSt l1)
          (l2 :: rest)).output ++ (runGo a co ls 2
          (processLine a co ls 1 initSt l1) (l2 :: rest)).buffer).flatten := by
      unfold runOut
      rw [hcs]
    rw [hout]
    exact hres

/-- C5: when a line has no EOL marker (true end-of-stream without
terminator) and the ensure-EOF-newline policy is `fix` (no coercion
override), a marker is synthesized: the reference EOL when one is known
(non-empty), otherwise the host system's native EOL together with a
one-time warning event; the eof_newl category counts the line as both seen
and fixed.  In particular input "x\ny" yields output "x\ny\n". -/
theorem c5_eof_newline (a : Actions) (ls : List Char) (fe : Option (List Char))
    (ii : Nat) (em : Bool) (d : LineData)
    (hfix : a.eof_newl = .fix) (heol : d.eol = []) :
    ((fe.getD [] ≠ [] →
        (stageEol a none ls fe ii em d).eol = fe.getD [] ∧
        (stageEol a none ls fe ii em d).evs = d.evs) ∧
     (fe.getD [] = [] →
        (stageEol a none ls fe ii em d).eol = ls ∧
        (stageEol a none ls fe ii em d).evs =
          d.evs ++ [⟨0, ii, em, Msg.guessEol⟩]) ∧
     (stageEol a none ls fe ii em d).seen = bump d.seen Cat.eof_newl ∧
     (stageEol a none ls fe ii em d).fixed = bump d.fixed Cat.eof_newl) ∧
    runOut defaultActions none ['\n'] (splitLines ("x\ny".toList)) =
      "x\ny\n".toList := by
  constructor
  · unfold stageEol
    rw [if_pos heol]
    have hon : a.eof_newl.on = true := by rw [hfix]; rfl
    rw [if_pos hon, if_pos hfix]
    dsimp only
    by_cases hg : fe.getD [] ≠ []
    · rw [if_pos hg]
      exact ⟨fun _ => ⟨rfl, rfl⟩, fun hgg => absurd hgg hg, rfl, rfl⟩
    · rw [if_neg hg]
      exact ⟨fun hgg => absurd hgg hg, fun _ => ⟨rfl, rfl⟩, rfl, rfl⟩
  · decide

/-- Witness for C5: the last line "y" of "x\ny" with the default (fix)
policy and known reference EOL "\n". -/
theorem c5_eof_newline_witness :
    defaultActions.eof_newl = Act.fix ∧
    (⟨[], ['y'], [], [], none, Counters.zero, Counters.zero, []⟩ :
        LineData).eol = [] ∧
    ((some ['\n'] : Option (List Char)).getD [] ≠ [] →
      (stageEol defaultActions none ['\n'] (some ['\n']) 2 false
        ⟨[], ['y'], [], [], none, Counters.zero, Counters.zero, []⟩).eol =
          (some ['\n'] : Option (List Char)).getD []) := by
  refine ⟨rfl, rfl, fun hg => ?_⟩
  exact ((c5_eof_newline defaultActions ['\n'] (some ['\n']) 2 false
    ⟨[], ['y'], [], [], none, Counters.zero, Counters.zero, []⟩
    rfl rfl).1.1 hg).1

/- ### Claim C10 -/

/-- C10: with the space-to-tab width parameter N configured (so
tab-to-space is unset, as the options are mutually exclusive) and a line
whose leading whitespace contains no tab but at least one space, both
seen.change_spaces and fixed.change_spaces are incremented by exactly 1;
and when the leading whitespace contains no run of N consecutive spaces
(so the replacement changes nothing) and no other category rewrites the
line, the emitted line equals the input line. -/
theorem c10_change_spaces (a : Actions) (ls : List Char) (ii : Nat) (st : St)
    (l : List Char) (n : Nat)
    (hct : a.change_tabs = none) (hcs : a.change_spaces = some n)
    (hnotab : '\t' ∉ (decompose l).1) (hsp : ' ' ∈ (decompose l).1) :
    (processLine a none ls ii st l).seen Cat.change_spaces =
        st.seen Cat.change_spaces + 1 ∧
    (processLine a none ls ii st l).fixed Cat.change_spaces =
        st.fixed Cat.change_spaces + 1 ∧
    (1 ≤ n → ¬ (spaces n <:+: (decompose l).1) →
      a.change_non_leading_tabs = none → a.trail_space = .ignore →
      a.eof_newl = .ignore → a.match_eol = .ignore →
      (processLine a none ls ii st l).output =
        st.output ++ st.buffer ++ [l]) := by
  have hmx0 : mixedCond (initLD ii st l).ispace = false :=
    mixedCond_eq_false hnotab
  have h1 := stageMix_notMixed a ii ((decompose l).2.1.isEmpty)
    (initLD ii st l) hmx0
  have hd1i : (stageMix a ii ((decompose l).2.1.isEmpty)
      (initLD ii st l)).ispace = (decompose l).1 := by
    rcases h1 with h1 | h1 <;> rw [h1] <;> rfl
  have hd1m : (stageMix a ii ((decompose l).2.1.isEmpty)
      (initLD ii st l)).mixed ≠ some true := by
    rcases h1 with h1 | h1 <;> rw [h1] <;> simp [initLD]
  have hd1s : (stageMix a ii ((decompose l).2.1.isEmpty)
      (initLD ii st l)).seen = st.seen := by
    rcases h1 with h1 | h1 <;> rw [h1] <;> rfl
  have hd1f : (stageMix a ii ((decompose l).2.1.isEmpty)
      (initLD ii st l)).fixed = st.fixed := by
    rcases h1 with h1 | h1 <;> rw [h1] <;> rfl
  have hd1b : (stageMix a ii ((decompose l).2.1.isEmpty)
      (initLD ii st l)).body = (decompose l).2.1 := by
    rcases h1 with h1 | h1 <;> rw [h1] <;> rfl
  have hd1t : (stageMix a ii ((decompose l).2.1.isEmpty)
      (initLD ii st l)).trail = (decompose l).2.2.1 := by
    rcases h1 with h1 | h1 <;> rw [h1] <;> rfl
  have hd1e : (stageMix a ii ((decompose l).2.1.isEmpty)
      (initLD ii st l)).eol = (decompose l).2.2.2 := by
    rcases h1 with h1 | h1 <;> rw [h1] <;> rfl
  have h2 := stageWidth_cs_apply a
    (stageMix a ii ((decompose l).2.1.isEmpty) (initLD ii st l)) n hct hcs
    (by rw [hd1i]; exact hsp) hd1m
  have hps : (processLine a none ls ii st l).seen =
      (pipeline a none ls (nextFe st l) ii ((decompose l).2.1.isEmpty)
        (initLD ii st l)).seen := by
    unfold processLine
    dsimp only
    split <;> rfl
  have hpf : (processLine a none ls ii st l).fixed =
      (pipeline a none ls (nextFe st l) ii ((decompose l).2.1.isEmpty)
        (initLD ii st l)).fixed := by
    unfold processLine
    dsimp only
    split <;> rfl
  have h3 := stageNonLead_other a
    (stageWidth a (stageMix a ii ((decompose l).2.1.isEmpty) (initLD ii st l)))
    Cat.change_spaces (by decide)
  have h4 := stageTrail_other a
    (stageNonLead a (stageWidth a
      (stageMix a ii ((decompose l).2.1.isEmpty) (initLD ii st l))))
    Cat.change_spaces (by decide)
  have h5 := stageEol_other a none ls (nextFe st l) ii
    ((decompose l).2.1.isEmpty)
    (stageTrail a (stageNonLead a (stageWidth a
      (stageMix a ii ((decompose l).2.1.isEmpty) (initLD ii st l)))))
    Cat.change_spaces (by decide) (by decide) (by decide)
  have hs2 : (stageWidth a (stageMix a ii ((decompose l).2.1.isEmpty)
      (initLD ii st l))).seen Cat.change_spaces =
      st.seen Cat.change_spaces + 1 := by
    rw [h2]
    dsimp only
    rw [hd1s]
    exact bump_self _ _
  have hf2 : (stageWidth a (stageMix a ii ((decompose l).2.1.isEmpty)
      (initLD ii st l))).fixed Cat.change_spaces =
      st.fixed Cat.change_spaces + 1 := by
    rw [h2]
    dsimp only
    rw [hd1f]
    exact bump_self _ _
  refine ⟨?_, ?_, ?_⟩
  · rw [hps]
    unfold pipeline
    rw [h5.1, h4.1, h3.1, hs2]
  · rw [hpf]
    unfold pipeline
    rw [h5.2, h4.2, h3.2, hf2]
  · intro hn hninf hnl htr hen hme
    have hbody : (decompose l).2.1 ≠ [] := by
      intro hb
      have := (decompose_blank_parts l hb).1
      rw [this] at hsp
      simp at hsp
    have hem : (decompose l).2.1.isEmpty = false := by
      cases hevc : (decompose l).2.1 with
      | nil => exact absurd hevc hbody
      | cons x xs => rfl
    have hispace2 : (stageWidth a (stageMix a ii ((decompose l).2.1.isEmpty)
        (initLD ii st l))).ispace = (decompose l).1 := by
      rw [h2]
      dsimp only
      rw [hd1i, pyReplace_spaces_eq n hn]
      apply pyReplaceGo_not_infix
      intro hinf
      apply hninf
      have hrw : ' ' :: spaces (n - 1) = spaces n := by
        obtain ⟨m, rfl⟩ : ∃ m, n = m + 1 := ⟨n - 1, by omega⟩
        unfold spaces
        rw [List.replicate_succ]
        rfl
      rw [← hrw]
      exact hinf
    have hd3 := stageNonLead_none a
      (stageWidth a (stageMix a ii ((decompose l).2.1.isEmpty)
        (initLD ii st l))) hnl
    have hd4 := stageTrail_off a
      (stageNonLead a (stageWidth a
        (stageMix a ii ((decompose l).2.1.isEmpty) (initLD ii st l)))) htr
    have hd5 := stageEol_ignore a ls (nextFe st l) ii
      ((decompose l).2.1.isEmpty)
      (stageTrail a (stageNonLead a (stageWidth a
        (stageMix a ii ((decompose l).2.1.isEmpty) (initLD ii st l)))))
      hen hme
    have hwf := stageWidth_fields a
      (stageMix a ii ((decompose l).2.1.isEmpty) (initLD ii st l))
    have houtline : (pipeline a none ls (nextFe st l) ii
        ((decompose l).2.1.isEmpty) (initLD ii st l)).ispace ++
        (pipeline a none ls (nextFe st l) ii
          ((decompose l).2.1.isEmpty) (initLD ii st l)).body ++
        (pipeline a none ls (nextFe st l) ii
          ((decompose l).2.1.isEmpty) (initLD ii st l)).trail ++
        (pipeline a none ls (nextFe st l) ii
          ((decompose l).2.1.isEmpty) (initLD ii st l)).eol = l := by
      unfold pipeline
      rw [hd5, hd4, hd3, hispace2, hwf.1, hd1b, hwf.2.1, hd1t, hwf.2.2.1, hd1e]
      exact decompose_concat l
    unfold processLine
    dsimp only
    rw [if_neg (by rw [hem]; exact Bool.false_ne_true)]
    dsimp only
    rw [houtline]

/-- Witness for C10: line "  x\n" (two leading spaces) with width N = 3 and
all other rewriting categories off. -/
theorem c10_change_spaces_witness :
    '\t' ∉ (decompose ("  x\n".toList)).1 ∧
    ' ' ∈ (decompose ("  x\n".toList)).1 ∧
    (processLine ⟨.ignore, .fix, .ignore, .ignore, .report, none, none, some 3⟩
        none ['\n'] 1 initSt ("  x\n".toList)).seen Cat.change_spaces =
      initSt.seen Cat.change_spaces + 1 ∧
    (processLine ⟨.ignore, .fix, .ignore, .ignore, .report, none, none, some 3⟩
        none ['\n'] 1 initSt ("  x\n".toList)).fixed Cat.change_spaces =
      initSt.fixed Cat.change_spaces + 1 ∧
    (processLine ⟨.ignore, .fix, .ignore, .ignore, .report, none, none, some 3⟩
        none ['\n'] 1 initSt ("  x\n".toList)).output =
      initSt.output ++ initSt.buffer ++ ["  x\n".toList] :=
  ⟨by decide, by decide,
   (c10_change_spaces _ ['\n'] 1 initSt _ 3 rfl rfl (by decide) (by decide)).1,
   (c10_change_spaces _ ['\n'] 1 initSt _ 3 rfl rfl (by decide) (by decide)).2.1,
   (c10_change_spaces _ ['\n'] 1 initSt _ 3 rfl rfl (by decide) (by decide)).2.2
     (by decide) (by decide) rfl rfl rfl rfl⟩

/- ### Claim C8 -/

/-- C8 counterexample: with tab/space-mix policy `fix` and
space-to-tab width 2, the line "\t x\n" is a fixed point of the processing
(the mixed leading whitespace "\t " is converted tabs-to-spaces then
spaces-to-tab, reproducing itself), yet it is flagged as mixed on every
pass: feeding the first pass's output through a second pass with the same
configuration yields seen.tab_space_mix = 1, not 0. -/
theorem c8_counterexample :
    runOut mixFixCfg none ['\n'] (splitLines ("\t x\n".toList)) =
      "\t x\n".toList ∧
    (run mixFixCfg none ['\n']
        (splitLines (runOut mixFixCfg none ['\n']
          (splitLines ("\t x\n".toList))))).seen Cat.tab_space_mix ≠ 0 := by
  decide

/-- C8 (amended): for configurations without `report` policies, without
space-to-tab conversion, with a tab width configured whenever the
tab/space-mix policy is `fix`, with a standard coercion target and native
EOL, and with trailing whitespace removed whenever EOL markers can be
rewritten (the `GoodCfg` class), one pass reaches a fixed point: feeding
the output (re-split into lines the way binary-mode iteration does) through
a second pass with the same configuration reproduces it byte for byte,
counts zero seen and zero fixed issues in every category, and emits no
warnings. -/
theorem c8_idempotent_good (a : Actions) (co : Option (List Char))
    (ls : List Char) (hcfg : GoodCfg a co ls) (s : List Char) :
    runOut a co ls (splitLines (runOut a co ls (splitLines s))) =
      runOut a co ls (splitLines s) ∧
    (∀ k, (run a co ls
      (splitLines (runOut a co ls (splitLines s)))).seen k = 0) ∧
    (∀ k, (run a co ls
      (splitLines (runOut a co ls (splitLines s)))).fixed k = 0) ∧
    warnCount (run a co ls
      (splitLines (runOut a co ls (splitLines s)))) = 0 := by
  cases hsp : splitLines s with
  | nil => exact ⟨rfl, fun k => rfl, fun k => rfl, rfl⟩
  | cons x xs =>
    cases xs with
    | nil =>
      exact run_single_silent a co ls hcfg x
        (((splitLines_props s).1 x
          (by rw [hsp]; exact List.mem_cons_self _ _)).1)
    | cons y ys =>
      exact run_multi_silent a co ls hcfg x y ys
        (fun l hl => ((splitLines_props s).1 l (by rw [hsp]; exact hl)).1)
        (fun l hl => (splitLines_props s).2 l (by rw [hsp]; exact hl))

/-- Witness for C8: the all-fix configuration (tab/space-mix disabled) on
the input "  x\t \n\r\nok" is idempotent and the second pass is silent. -/
theorem c8_idempotent_good_witness :
    GoodCfg allFixCfg none ['\n'] ∧
    (runOut allFixCfg none ['\n'] (splitLines (runOut allFixCfg none ['\n']
        (splitLines ("  x\t \n\r\nok".toList)))) =
      runOut allFixCfg none ['\n'] (splitLines ("  x\t \n\r\nok".toList)) ∧
    (∀ k, (run allFixCfg none ['\n'] (splitLines (runOut allFixCfg none ['\n']
      (splitLines ("  x\t \n\r\nok".toList))))).seen k = 0) ∧
    (∀ k, (run allFixCfg none ['\n'] (splitLines (runOut allFixCfg none ['\n']
      (splitLines ("  x\t \n\r\nok".toList))))).fixed k = 0) ∧
    warnCount (run allFixCfg none ['\n'] (splitLines (runOut allFixCfg none
      ['\n'] (splitLines ("  x\t \n\r\nok".toList))))) = 0) :=
  have hcfg : GoodCfg allFixCfg none ['\n'] :=
    ⟨by decide, by decide, by decide, by decide, by decide, rfl, by decide,
     Or.inl rfl, Or.inl rfl, Or.inl rfl⟩
  ⟨hcfg, c8_idempotent_good allFixCfg none ['\n'] hcfg
    ("  x\t \n\r\nok".toList)⟩

/- ### Claim C2 -/

/-- C2 counterexample: for input "x\n\n\n" with EOF-blanks policy `report`,
NO warning events are emitted (a warning event is a yield with verbosity 0,
printed even by a quiet caller); the claim asserts one warning per buffered
blank line, 2 in total.  The `report` path at EOF only counts the buffered
lines, it yields nothing. -/
theorem c2_counterexample :
    warnCount (run { defaultActions with eof_blanks := .report } none ['\n']
      (splitLines ("x\n\n\n".toList))) = 0 ∧
    warnCount (run { defaultActions with eof_blanks := .report } none ['\n']
      (splitLines ("x\n\n\n".toList))) ≠ 2 := by
  decide

/-- C2 amended: for input "x\n\n\n": with EOF-blanks policy `fix` the
output is exactly "x\n" and the two blank lines each count as seen and
fixed; with policy `report` the output equals the input unchanged,
seen.eof_blanks = 2 and fixed.eof_blanks = 0, and no warning events are
emitted (the report path counts silently; only the end-of-file summary
reports the total). -/
theorem c2_eof_blanks :
    runOut defaultActions none ['\n'] (splitLines ("x\n\n\n".toList)) =
        "x\n".toList ∧
    (run defaultActions none ['\n'] (splitLines ("x\n\n\n".toList))).seen
        Cat.eof_blanks = 2 ∧
    (run defaultActions none ['\n'] (splitLines ("x\n\n\n".toList))).fixed
        Cat.eof_blanks = 2 ∧
    runOut { defaultActions with eof_blanks := .report } none ['\n']
        (splitLines ("x\n\n\n".toList)) = "x\n\n\n".toList ∧
    (run { defaultActions with eof_blanks := .report } none ['\n']
        (splitLines ("x\n\n\n".toList))).seen Cat.eof_blanks = 2 ∧
    (run { defaultActions with eof_blanks := .report } none ['\n']
        (splitLines ("x\n\n\n".toList))).fixed Cat.eof_blanks = 0 ∧
    warnCount (run { defaultActions with eof_blanks := .report } none ['\n']
        (splitLines ("x\n\n\n".toList))) = 0 := by
  decide

/- ### Claim C4 -/

/-- C4: for input "a\r\nb\nc\n" with EOL-mismatch policy `fix` (the
default) and no configured override, the output is exactly
"a\r\nb\r\nc\r\n": the reference EOL is the first line's "\r\n" and every
later line whose marker differs is rewritten to it. -/
theorem c4_eol_reference :
    runOut defaultActions none ['\n'] (splitLines ("a\r\nb\nc\n".toList)) =
        "a\r\nb\r\nc\r\n".toList ∧
    (run defaultActions none ['\n']
        (splitLines ("a\r\nb\nc\n".toList))).first_eol = some ['\r', '\n'] ∧
    (run defaultActions none ['\n']
        (splitLines ("a\r\nb\nc\n".toList))).seen Cat.match_eol = 2 ∧
    (run defaultActions none ['\n']
        (splitLines ("a\r\nb\nc\n".toList))).fixed Cat.match_eol = 2 := by
  decide

/- ### Claim C6 -/

/-- C6: if the parsed arguments request action `fix` for the
tab/space-mix category while neither width parameter is supplied, the
configuration step downgrades the action to `report` and prints a warning;
it never raises (the check is a total function) and never leaves the
category at `fix` without a width parameter. -/
theorem c6_tab_space_mix_downgrade (g : ArgsCfg) :
    (g.tab_space_mix = .fix → g.change_tabs = none → g.change_spaces = none →
      (validateTabSpaceMix g).1.tab_space_mix = .report ∧
        (validateTabSpaceMix g).2 = true) ∧
    ((validateTabSpaceMix g).1.tab_space_mix = .fix →
      g.change_tabs ≠ none ∨ g.change_spaces ≠ none) := by
  constructor
  · intro h1 h2 h3
    unfold validateTabSpaceMix
    rw [if_pos ⟨h1, h2, h3⟩]
    exact ⟨rfl, rfl⟩
  · intro hfix
    unfold validateTabSpaceMix at hfix
    by_cases hc : g.tab_space_mix = .fix ∧ g.change_tabs = none ∧
        g.change_spaces = none
    · rw [if_pos hc] at hfix
      simp at hfix
    · rw [if_neg hc] at hfix
      push_neg at hc
      by_cases hct : g.change_tabs = none
      · exact Or.inr ((hc hfix) hct)
      · exact Or.inl hct

/-- Witness for C6 at the configuration (fix, no widths). -/
theorem c6_tab_space_mix_downgrade_witness :
    (validateTabSpaceMix ⟨Act.fix, none, none⟩).1.tab_space_mix = Act.report ∧
      (validateTabSpaceMix ⟨Act.fix, none, none⟩).2 = true :=
  (c6_tab_space_mix_downgrade ⟨Act.fix, none, none⟩).1 rfl rfl rfl

/-- Witness for C3: one file "x \n" with the default configuration has
seen = fixed = 1 (trailing space chopped), so the exit status is 10. -/
theorem c3_exit_codes_witness :
    0 < sumSeen defaultActions none ['\n'] [splitLines ("x \n".toList)] ∧
    sumSeen defaultActions none ['\n'] [splitLines ("x \n".toList)] =
      sumFixed defaultActions none ['\n'] [splitLines ("x \n".toList)] ∧
    exitCode false (sumSeen defaultActions none ['\n'] [splitLines ("x \n".toList)])
      (sumFixed defaultActions none ['\n'] [splitLines ("x \n".toList)]) = 10 :=
  ⟨by decide, by decide,
   (c3_exit_codes defaultActions none ['\n']
     [splitLines ("x \n".toList)]).2.2.1 (by decide) (by decide)⟩

end Wtf
